import Mathlib

/-!
# Verification of the keybind scanner core (keybind_scanner.py)

Shallow embedding of the scan-and-aggregate pipeline of the keybind scanner:

* the regex pattern engine for the four default `Input*` call patterns and the
  filename patterns (`matchToks`, `finditer`), modelling Python `re` semantics
  for the restricted regex fragment those patterns use (literals, character
  classes, greedy star/plus with backtracking, one capture group, `$`);
* `scan_file`'s per-line match loop including its exception behaviour
  (`scanLineExc`, `scanFileLinesExc`);
* `should_scan_file` over `FILE_PATTERNS`;
* `parse_mod_status_xml` over an abstracted XML document (`parseModStatus`);
* the two-phase `aggregate_results` merge (`mergedPhase`, `aggregate_results`).

Python dicts are modelled as insertion-ordered association lists, Python sets
followed by `sorted(...)` as first-seen deduplication followed by a sort, and
Python's dynamically typed `line_number` field (`int` before merging, `str`
after) as `Nat ⊕ String`.
-/

/-! ## Generic list utilities (Python dict / set / sorted counterparts) -/

/-- First-match association-list lookup (Python `dict[k]` access order is
irrelevant for lookup once keys are unique; for raw entry lists this is the
first entry with the given key). -/
def alookup {κ β : Type} [DecidableEq κ] (k : κ) : List (κ × β) → Option β
  | [] => none
  | (k', v) :: rest => if k = k' then some v else alookup k rest

/-- Python `d[k] = v` on an insertion-ordered dict: update in place if the key
exists, else append at the end. -/
def dictSet {κ β : Type} [DecidableEq κ] (k : κ) (v : β) : List (κ × β) → List (κ × β)
  | [] => [(k, v)]
  | (k', v') :: rest => if k' = k then (k', v) :: rest else (k', v') :: dictSet k v rest

/-- Accumulator-style first-seen deduplication: mirrors the Python idiom
`if x not in acc: acc.append(x)`. -/
def dedupAux {α : Type} [DecidableEq α] (acc : List α) : List α → List α
  | [] => acc
  | x :: xs => if x ∈ acc then dedupAux acc xs else dedupAux (acc ++ [x]) xs

/-- First-seen deduplication of a list (also the model of collecting a Python
`set`, whose unordered contents are only ever consumed through `sorted`). -/
def dedupFirst {α : Type} [DecidableEq α] (l : List α) : List α := dedupAux [] l

/-- Ordered insertion for insertion sort. -/
def insertLe {α : Type} (le : α → α → Bool) (x : α) : List α → List α
  | [] => [x]
  | y :: ys => if le x y then x :: y :: ys else y :: insertLe le x ys

/-- Insertion sort; on duplicate-free input with a total order this agrees with
Python `sorted`. -/
def insSort {α : Type} (le : α → α → Bool) (l : List α) : List α :=
  l.foldr (insertLe le) []

/-- Lexicographic code-point comparison of char lists, as Python compares
strings. -/
def listCharLe : List Char → List Char → Bool
  | [], _ => true
  | _ :: _, [] => false
  | a :: as, b :: bs => if a = b then listCharLe as bs else decide (a < b)

/-- Python string `<=` (lexicographic by code point). -/
def strLe (a b : String) : Bool := listCharLe a.data b.data

/-- `<=` on `Nat` as a `Bool`, for sorting line numbers numerically. -/
def natLe (a b : Nat) : Bool := decide (a ≤ b)

/-- Boolean prefix test on lists. -/
def isPrefixB {α : Type} [DecidableEq α] : List α → List α → Bool
  | [], _ => true
  | _ :: _, [] => false
  | a :: as, b :: bs => decide (a = b) && isPrefixB as bs

/-- Everything after the first occurrence of `sep`, i.e. Python
`s.split(sep, 1)[1]` when the separator occurs (`none` when it does not). -/
def splitAfterFirst (sep : Char) : List Char → Option (List Char)
  | [] => none
  | c :: cs => if c = sep then some cs else splitAfterFirst sep cs

/-- ASCII lowering of a string, modelling Python `str.lower()` (non-ASCII case
mappings are not modelled; all strings the claims exercise are ASCII). -/
def pyLower (s : String) : String := String.mk (s.data.map Char.toLower)

/-! ## The record data model

`scan_file` emits dicts with five fields; `scan_directories` then stamps
`mod_name` and `mod_enabled` onto them.  `line_number` is an `int` on raw
matches and becomes a `"; "`-joined `str` on merged records, hence
`Nat ⊕ String`. -/

/-- A raw match as produced by `scan_file` (before mod stamping). -/
structure FileMatch where
  file_path : String
  line_number : Nat
  key_name : String
  context : String
  matched_text : String
  deriving DecidableEq, Repr

/-- A result record as consumed by `aggregate_results`: a stamped raw match
(`line_number = .inl n`) or a merged record (`line_number = .inr s`). -/
structure RawResult where
  file_path : String
  line_number : Nat ⊕ String
  key_name : String
  context : String
  matched_text : String
  mod_name : String
  mod_enabled : Bool
  deriving DecidableEq, Repr

/-- `scan_directories`'s stamping loop: `result['mod_name'] = mod_name;
result['mod_enabled'] = is_enabled`. -/
def stampMod (modName : String) (enabled : Bool) (fm : FileMatch) : RawResult :=
  { file_path := fm.file_path
    line_number := Sum.inl fm.line_number
    key_name := fm.key_name
    context := fm.context
    matched_text := fm.matched_text
    mod_name := modName
    mod_enabled := enabled }

/-- The grouping key of phase 1: `(result['mod_name'], result['key_name'])`. -/
def pairKey (r : RawResult) : String × String := (r.mod_name, r.key_name)

/-! ## Grouping (Python `defaultdict(list)` in insertion order) -/

/-- Append `x` to the group of key `k`, creating the group at the end if absent
(Python `defaultdict(list)[k].append(x)` preserving dict insertion order). -/
def insGroup {κ α : Type} [DecidableEq κ] (k : κ) (x : α) :
    List (κ × List α) → List (κ × List α)
  | [] => [(k, [x])]
  | (k', g) :: rest =>
      if k = k' then (k', g ++ [x]) :: rest else (k', g) :: insGroup k x rest

/-- Group a list by a key function, keys in first-seen order, each group in
original element order. -/
def groupByKey {κ α : Type} [DecidableEq κ] (f : α → κ) (xs : List α) :
    List (κ × List α) :=
  xs.foldl (fun acc x => insGroup (f x) x acc) []

/-! ## The two-phase merge of `aggregate_results` -/

/-- Ordering used for `sorted(all_lines)`.  In the pipeline every group being
merged holds only `int` line numbers, so only the `inl/inl` case is ever
exercised (Python would raise `TypeError` on a mixed int/str sort; the cross
cases are an arbitrary total extension). -/
def lineLe : Nat ⊕ String → Nat ⊕ String → Bool
  | .inl a, .inl b => natLe a b
  | .inr a, .inr b => strLe a b
  | .inl _, .inr _ => true
  | .inr _, .inl _ => false

/-- Python `str(line)` on a line-number value. -/
def lineStr : Nat ⊕ String → String
  | .inl n => toString n
  | .inr s => s

/-- The body of the per-group loop of `aggregate_results`: a single occurrence
is used as-is; multiple occurrences are merged onto a copy of the first record
(file paths deduplicated and sorted, line numbers deduplicated and sorted,
first three distinct contexts, all other fields kept from the first record). -/
def mergeGroup : List RawResult → List RawResult
  | [] => []
  | [r] => [r]
  | first :: snd :: rest =>
      let g := first :: snd :: rest
      let all_files := insSort strLe (dedupFirst (g.map (·.file_path)))
      let all_lines := insSort lineLe (dedupFirst (g.map (·.line_number)))
      let all_contexts := dedupFirst (g.map (·.context))
      [{ first with
          file_path := String.intercalate "; " all_files
          line_number := Sum.inr (String.intercalate "; " (all_lines.map lineStr))
          context := String.intercalate " | " (all_contexts.take 3) }]

/-- Phase 1 of `aggregate_results`: group by `(mod_name, key_name)` and merge
each group; the merged records come out in first-seen group order, exactly as
iterating `merged_results.values()`. -/
def mergedPhase (rs : List RawResult) : List RawResult :=
  (groupByKey pairKey rs).flatMap (fun p => mergeGroup p.2)

/-- `KeybindScanner.aggregate_results`: phase 1 then grouping of the merged
records by `key_name` into the final aggregated mapping. -/
def aggregate_results (rs : List RawResult) : List (String × List RawResult) :=
  groupByKey (fun r => r.key_name) (mergedPhase rs)

/-- Flattening an aggregated mapping back into a flat list of records. -/
def flattenAggregated (a : List (String × List RawResult)) : List RawResult :=
  a.flatMap (fun p => p.2)

/-- Conflict status of one aggregated entry as derived by the viewers
(gui.py line 521: `len(bindings) > 1`). -/
def hasConflict (bindings : List RawResult) : Bool := decide (1 < bindings.length)

/-! ## Mod status manifest (`parse_mod_status_xml`) and enablement lookup -/

/-- One `<mod .../>` element of the manifest: its `id` and `active` attributes,
either of which may be absent. -/
structure ModElem where
  id : Option String
  active : Option String
  deriving DecidableEq, Repr

/-- An abstracted manifest file: either unparseable (malformed XML / I/O
failure, which `parse_mod_status_xml` catches) or the list of `mod` children of
the root, in document order. -/
inductive XmlDoc where
  | malformed : XmlDoc
  | doc : List ModElem → XmlDoc
  deriving DecidableEq, Repr

/-- The per-element `active` computation:
`mod_elem.get('active', 'false').lower() == 'true'`. -/
def elemActive (e : ModElem) : Bool := pyLower (e.active.getD "false") == "true"

/-- The loop body of `parse_mod_status_xml` for one `mod` element: elements
without an `id` (or with an empty one, Python truthiness) or whose `id` has no
`'-'` separator contribute nothing; otherwise the directory name after the
first `'-'` maps to the `active` flag. -/
def parseStep (acc : List (String × Bool)) (e : ModElem) : List (String × Bool) :=
  let active := elemActive e
  match e.id with
  | none => acc
  | some mid =>
      if mid = "" then acc
      else
        match splitAfterFirst '-' mid.data with
        | some rest => dictSet (String.mk rest) active acc
        | none => acc

/-- `KeybindScanner.parse_mod_status_xml`: walk the `mod` elements building the
status dict; a malformed document yields the empty mapping. -/
def parseModStatus : XmlDoc → List (String × Bool)
  | .malformed => []
  | .doc mods => mods.foldl parseStep []

/-- The entry each manifest element contributes, before dict overriding:
derived directory basename and active flag (spec §4.4 wording). -/
def derivedEntry (e : ModElem) : Option (String × Bool) :=
  match e.id with
  | none => none
  | some mid =>
      if mid = "" then none
      else (splitAfterFirst '-' mid.data).map (fun rest => (String.mk rest, elemActive e))

/-- All contributed entries of a manifest, in document order. -/
def derivedEntries (mods : List ModElem) : List (String × Bool) :=
  mods.filterMap derivedEntry

/-- `scan_directories`'s enablement lookup:
`mod_status.get(mod_dir_name, True)`. -/
def modStatusGet (modStatus : List (String × Bool)) (name : String) : Bool :=
  (alookup name modStatus).getD true

/-! ## Pattern engine

The scanner's regexes use only: literal characters, the classes `\s`, `["']`,
`[^"']` and `.`, greedy `*` and `+` (the latter only inside the single capture
group), and `$`.  `matchToks` implements Python `re`'s leftmost-greedy
backtracking semantics for exactly this fragment: a greedy repetition first
consumes the maximal run of class characters and backs off one character at a
time until the rest of the pattern matches. -/

/-- Python `\s` for `str` patterns (Unicode whitespace). -/
def isPySpace (c : Char) : Bool :=
  c = ' ' || c = '\t' || c = '\n' || c = '\x0b' || c = '\x0c' || c = '\r' ||
  (0x1c ≤ c.toNat && c.toNat ≤ 0x1f) || c.toNat = 0x85 || c.toNat = 0xa0 ||
  c.toNat = 0x1680 || (0x2000 ≤ c.toNat && c.toNat ≤ 0x200a) ||
  c.toNat = 0x2028 || c.toNat = 0x2029 || c.toNat = 0x202f || c.toNat = 0x205f ||
  c.toNat = 0x3000

/-- The character classes occurring in the scanner's patterns. -/
inductive CharClass where
  | pySpace : CharClass
  | quote : CharClass
  | notQuote : CharClass
  | notNewline : CharClass
  deriving DecidableEq, Repr

/-- Membership test of a character class. -/
def CharClass.test : CharClass → Char → Bool
  | .pySpace, c => isPySpace c
  | .quote, c => c = '"' || c = '\''
  | .notQuote, c => !(c = '"' || c = '\'')
  | .notNewline, c => decide (c ≠ '\n')

/-- Tokens of the regex fragment.  `gplus` is the capture group `([class]+)`;
`eol` is `$` without `re.MULTILINE` (end of string, or just before a newline at
the end of the string).  `^` at the start of a pattern is omitted: under
`re.match` (anchored at position 0) it is vacuous without `re.MULTILINE`. -/
inductive Tok where
  | lit : Char → Tok
  | cls : CharClass → Tok
  | star : CharClass → Tok
  | gplus : CharClass → Tok
  | eol : Tok
  deriving DecidableEq, Repr

/-- Character comparison, optionally case-insensitive.  `re.IGNORECASE` is
modelled by ASCII lowering (Python additionally applies Unicode case folding,
e.g. the long s; the modelled patterns and claims are ASCII). -/
def charEq (ci : Bool) (c a : Char) : Bool :=
  if ci then decide (c.toLower = a.toLower) else decide (c = a)

/-- Case-insensitive prefix test, as the literal tokens of a pattern consume a
subject under `re.IGNORECASE`. -/
def ciPrefixB (ci : Bool) : List Char → List Char → Bool
  | [], _ => true
  | _ :: _, [] => false
  | c :: w, a :: s => charEq ci c a && ciPrefixB ci w s

/-- Length of the maximal prefix whose characters satisfy `p`. -/
def runLen (p : Char → Bool) : List Char → Nat
  | [] => 0
  | c :: cs => if p c then runLen p cs + 1 else 0

/-- First-success choice with a lazily evaluated fallback. -/
def orElseOpt {α : Type} (a : Option α) (b : Unit → Option α) : Option α :=
  match a with
  | some r => some r
  | none => b ()

/-- Backtracking helper: try `f i`, `f (i-1)`, ..., `f 0`, first success wins
(greedy: longest candidate first). -/
def tryFromDown {α : Type} (f : Nat → Option α) : Nat → Option α
  | 0 => f 0
  | i + 1 => orElseOpt (f (i + 1)) (fun _ => tryFromDown f i)

/-- Backtracking helper for `+`: try `f i`, ..., `f 1`, never `f 0`. -/
def tryFromDownPos {α : Type} (f : Nat → Option α) : Nat → Option α
  | 0 => none
  | i + 1 => orElseOpt (f (i + 1)) (fun _ => tryFromDownPos f i)

/-- Anchored match of a token list against a char list.  Returns the unconsumed
suffix and the captured group, if any.  The modelled patterns contain at most
one capture group, so a `gplus` capture simply replaces the (absent) inner one
— this is Python's `group(1)`. -/
def matchToks (ci : Bool) : List Tok → List Char → Option (List Char × Option String)
  | [], s => some (s, none)
  | .lit _ :: _, [] => none
  | .lit c :: ts, a :: s => if charEq ci c a then matchToks ci ts s else none
  | .cls _ :: _, [] => none
  | .cls p :: ts, a :: s => if p.test a then matchToks ci ts s else none
  | .star p :: ts, s =>
      tryFromDown (fun i => matchToks ci ts (s.drop i)) (runLen p.test s)
  | .gplus p :: ts, s =>
      tryFromDownPos
        (fun i => (matchToks ci ts (s.drop i)).map (fun r => (r.1, some (String.mk (s.take i)))))
        (runLen p.test s)
  | .eol :: ts, s => if s = [] ∨ s = ['\n'] then matchToks ci ts s else none

/-- Number of capture groups of a compiled pattern. -/
def countGroups (p : List Tok) : Nat :=
  p.countP (fun t => match t with | .gplus _ => true | _ => false)

/-- Literal tokens of a string. -/
def lits (s : String) : List Tok := s.data.map Tok.lit

/-- The shared tail `\(\s*["\']([^"\']+)["\']\s*\)` of the four default
patterns (the `\(` literal is part of the `lits` prefix below). -/
def quotedArgToks : List Tok :=
  [Tok.star .pySpace, Tok.cls .quote, Tok.gplus .notQuote, Tok.cls .quote,
   Tok.star .pySpace, Tok.lit ')']

/-- `InputPressed\(\s*["\']([^"\']+)["\']\s*\)` -/
def inputPressedToks : List Tok := lits "InputPressed(" ++ quotedArgToks

/-- `InputDown\(\s*["\']([^"\']+)["\']\s*\)` -/
def inputDownToks : List Tok := lits "InputDown(" ++ quotedArgToks

/-- `InputReleased\(\s*["\']([^"\']+)["\']\s*\)` -/
def inputReleasedToks : List Tok := lits "InputReleased(" ++ quotedArgToks

/-- `InputValue\(\s*["\']([^"\']+)["\']\s*\)` -/
def inputValueToks : List Tok := lits "InputValue(" ++ quotedArgToks

/-- The `DEFAULT_PATTERNS` list, compiled. -/
def DEFAULT_PATTERNS : List (List Tok) :=
  [inputPressedToks, inputDownToks, inputReleasedToks, inputValueToks]

/-- `^main\.lua$` with `re.IGNORECASE`. -/
def mainLuaToks : List Tok := lits "main.lua" ++ [Tok.eol]

/-- `^options\.lua$` with `re.IGNORECASE`. -/
def optionsLuaToks : List Tok := lits "options.lua" ++ [Tok.eol]

/-- `^info\.txt$` with `re.IGNORECASE`. -/
def infoTxtToks : List Tok := lits "info.txt" ++ [Tok.eol]

/-- `^readme.*$` with `re.IGNORECASE`. -/
def readmeToks : List Tok := lits "readme" ++ [Tok.star .notNewline, Tok.eol]

/-- The `FILE_PATTERNS` list, compiled (all with `re.IGNORECASE`). -/
def FILE_PATTERNS : List (List Tok) :=
  [mainLuaToks, optionsLuaToks, infoTxtToks, readmeToks]

/-- Truthiness of `pattern.match(s)`. -/
def reMatchB (ci : Bool) (pat : List Tok) (s : String) : Bool :=
  (matchToks ci pat s.data).isSome

/-- `KeybindScanner.should_scan_file`: does any of the filename patterns match
the name? -/
def should_scan_file (name : String) : Bool :=
  FILE_PATTERNS.any (fun pat => reMatchB true pat name)

/-- One scan position of `finditer`: on a match, emit
`(start, group(0), group capture)` and resume (through `next`) at the match
end, or one position further when the match is empty; on no match, move one
position right. -/
def finditerNext (next : List Char → Nat → List (Nat × String × Option String))
    (matchRes : Option (List Char × Option String)) (s : List Char) (pos : Nat) :
    List (Nat × String × Option String) :=
  match matchRes with
  | some (rem, grp) =>
      let mlen := s.length - rem.length
      (pos, String.mk (s.take mlen), grp) ::
        (if mlen = 0 then
          match s with
          | [] => []
          | _ :: s' => next s' (pos + 1)
        else next rem (pos + mlen))
  | none =>
      match s with
      | [] => []
      | _ :: s' => next s' (pos + 1)

/-- Worker for `finditer`: scan positions left to right.  The fuel is a strict
upper bound on the number of scan positions. -/
def finditerAux (ci : Bool) (pat : List Tok) :
    Nat → List Char → Nat → List (Nat × String × Option String)
  | 0, _, _ => []
  | fuel + 1, s, pos =>
      finditerNext (finditerAux ci pat fuel) (matchToks ci pat s) s pos

/-- `pattern.finditer(line)`. -/
def finditer (ci : Bool) (pat : List Tok) (line : String) :
    List (Nat × String × Option String) :=
  finditerAux ci pat (line.data.length + 1) line.data 0

/-! ## The per-line scan loop of `scan_file` -/

/-- Python slice `s[a:b]` for `0 ≤ a ≤ b`. -/
def pySlice (s : String) (a b : Nat) : String :=
  String.mk ((s.data.drop a).take (b - a))

/-- Python `str.strip()`. -/
def pyStrip (s : String) : String :=
  String.mk (((s.data.dropWhile isPySpace).reverse.dropWhile isPySpace).reverse)

/-- Build one raw-match record from a regex match: the context is the stripped
slice from 50 characters before the match start to 50 after its end, clipped to
the line (`start - 50` truncates at 0 exactly like Python's `max(0, ...)`). -/
def buildMatch (file : String) (lineNo : Nat) (line : String)
    (st : Nat) (mtext : String) (key : String) : FileMatch :=
  let e := st + mtext.length
  let a := st - 50
  let b := min line.length (e + 50)
  { file_path := file
    line_number := lineNo
    key_name := key
    context := pyStrip (pySlice line a b)
    matched_text := mtext }

/-- Emit records for the matches of one pattern on one line.  A match whose
pattern has no capture group makes `match.group(1)` raise `IndexError`: nothing
is emitted for it (or any later match) and the exception flag is set. -/
def emitMatches (file : String) (lineNo : Nat) (line : String) :
    List (Nat × String × Option String) → List FileMatch × Bool
  | [] => ([], false)
  | (st, mt, grp) :: ms =>
      match grp with
      | none => ([], true)
      | some key =>
          let r := emitMatches file lineNo line ms
          (buildMatch file lineNo line st mt key :: r.1, r.2)

/-- Sequence two emitting steps: once the exception flag is set, later steps do
not run (the `try` block of `scan_file` has been exited). -/
def seqEmit (a : List FileMatch × Bool) (k : Unit → List FileMatch × Bool) :
    List FileMatch × Bool :=
  if a.2 then a
  else
    let b := k ()
    (a.1 ++ b.1, b.2)

/-- The inner loop of `scan_file` on one line: every compiled pattern in order,
every match of each. -/
def scanLineExc (ci : Bool) (pats : List (List Tok)) (file : String)
    (lineNo : Nat) (line : String) : List FileMatch × Bool :=
  pats.foldl
    (fun acc pat => seqEmit acc (fun _ => emitMatches file lineNo line (finditer ci pat line)))
    ([], false)

/-- The line loop of `scan_file` over the already-split content
(`enumerate(lines, 1)`), with the surrounding `try/except`: an exception stops
the scan but the records accumulated so far are still returned. -/
def scanFileLinesExc (ci : Bool) (pats : List (List Tok)) (file : String)
    (lines : List String) : List FileMatch × Bool :=
  (lines.enumFrom 1).foldl
    (fun acc p => seqEmit acc (fun _ => scanLineExc ci pats file p.1 p.2))
    ([], false)

/-! ## Scanner construction (`__init__`) -/

/-- A user-supplied pattern string: either a syntactically valid regex, given
by its compiled form, or a malformed one, given by its text. -/
inductive UserPattern where
  | ok : List Tok → UserPattern
  | malformed : String → UserPattern
  deriving DecidableEq, Repr

/-- Outcome of `KeybindScanner.__init__`'s compile loop. -/
inductive InitOutcome where
  | ok : List (List Tok) → InitOutcome
  | reError : String → InitOutcome
  deriving DecidableEq, Repr

/-- The `__init__` compile loop (with `whole_word = False`; that option only
wraps each pattern in `\b` anchors and no claim depends on it): each pattern is
passed to `re.compile`, which raises `re.error` on the first malformed pattern.
There is no capture-group validation and no `ConfigurationError` class anywhere
in the scanner. -/
def scannerInit : List UserPattern → InitOutcome
  | [] => .ok []
  | .malformed s :: _ => .reError s
  | .ok t :: rest =>
      match scannerInit rest with
      | .reError s => .reError s
      | .ok ts => .ok (t :: ts)

/-- The first malformed pattern among the supplied ones, if any. -/
def firstMalformed (ps : List UserPattern) : Option String :=
  ps.findSome? (fun p => match p with | .malformed s => some s | .ok _ => none)

/-! ## Spec-side definitions

These follow the wording of the specification and the claims, to be compared
against the behaviour of the code-derived definitions above. -/

/-- Spec wording: contributing file paths, deduplicated and joined in sorted
order with `"; "`. -/
def specSortedFiles (g : List RawResult) : String :=
  String.intercalate "; " (insSort strLe (dedupFirst (g.map (·.file_path))))

/-- Spec wording: line numbers, deduplicated, sorted numerically, joined with
`"; "`. -/
def specSortedLines (g : List RawResult) : String :=
  String.intercalate "; "
    ((insSort natLe (dedupFirst (g.filterMap (fun r => r.line_number.getLeft?)))).map
      (fun n => toString n))

/-- Spec wording: the first up to 3 distinct context strings, in first-seen
order, joined with `" | "`. -/
def specContexts (g : List RawResult) : String :=
  String.intercalate " | " ((dedupFirst (g.map (·.context))).take 3)

/-- The claim's characterization of `should_scan_file`: case-insensitively
equal to one of the three fixed names, or case-insensitively beginning with
`readme`. -/
def claimShouldScan (name : String) : Bool :=
  pyLower name == "main.lua" || pyLower name == "options.lua" ||
  pyLower name == "info.txt" || isPrefixB "readme".data (pyLower name).data

/-- The amended characterization of `should_scan_file`: as the claim states,
except that each of the three fixed names may carry one trailing newline, and a
`readme*` name may contain a newline only as its final character (a consequence
of Python's `$` matching just before a trailing newline). -/
def amendedShouldScan (name : String) : Bool :=
  let ls := name.data.map Char.toLower
  decide (ls = "main.lua".data) || decide (ls = "main.lua\n".data) ||
  decide (ls = "options.lua".data) || decide (ls = "options.lua\n".data) ||
  decide (ls = "info.txt".data) || decide (ls = "info.txt\n".data) ||
  (isPrefixB "readme".data ls && ls.dropLast.all (fun c => decide (c ≠ '\n')))


/-! ## Lemmas: grouping -/

/-- The group of a key, defaulting to empty. -/
def glook {κ α : Type} [DecidableEq κ] (k : κ) (G : List (κ × List α)) : List α :=
  (alookup k G).getD []

theorem glook_cons_ne {κ α : Type} [DecidableEq κ] {k k₀ : κ} (g₀ : List α)
    (G : List (κ × List α)) (h : ¬k = k₀) :
    glook k ((k₀, g₀) :: G) = glook k G := by
  simp [glook, alookup, h]

theorem alookup_insGroup {κ α : Type} [DecidableEq κ] (k k' : κ) (x : α)
    (G : List (κ × List α)) :
    alookup k' (insGroup k x G) =
      if k' = k then some (glook k G ++ [x]) else alookup k' G := by
  induction G with
  | nil =>
      by_cases h : k' = k <;> simp [insGroup, alookup, glook, h]
  | cons p G ih =>
      obtain ⟨k₀, g₀⟩ := p
      by_cases h1 : k = k₀
      · subst h1
        by_cases h2 : k' = k <;> simp [insGroup, alookup, glook, h2]
      · by_cases h2 : k' = k₀
        · subst h2
          have hne : ¬k' = k := fun hh => h1 hh.symm
          simp [insGroup, alookup, h1, hne]
        · by_cases h3 : k' = k
          · subst h3
            simp [insGroup, alookup, h1, h2, ih, glook_cons_ne g₀ G h1]
          · simp [insGroup, alookup, h1, h2, h3, ih]

theorem glook_insGroup {κ α : Type} [DecidableEq κ] (k k' : κ) (x : α)
    (G : List (κ × List α)) :
    glook k' (insGroup k x G) = if k' = k then glook k G ++ [x] else glook k' G := by
  by_cases h : k' = k <;> simp [glook, alookup_insGroup, h]

theorem glook_foldl_ins {κ α : Type} [DecidableEq κ] (f : α → κ) (k : κ)
    (xs : List α) (acc : List (κ × List α)) :
    glook k (xs.foldl (fun a x => insGroup (f x) x a) acc) =
      glook k acc ++ xs.filter (fun x => decide (f x = k)) := by
  induction xs generalizing acc with
  | nil => simp
  | cons x xs ih =>
      rw [List.foldl_cons, ih, glook_insGroup, List.filter_cons]
      by_cases h : f x = k
      · simp [h, List.append_assoc]
      · have h' : ¬k = f x := fun hh => h hh.symm
        simp [h, h']

/-- The group of `k` in `groupByKey f xs` is exactly the sublist of elements
with key `k`. -/
theorem glook_groupByKey {κ α : Type} [DecidableEq κ] (f : α → κ) (k : κ)
    (xs : List α) :
    glook k (groupByKey f xs) = xs.filter (fun x => decide (f x = k)) := by
  unfold groupByKey
  rw [glook_foldl_ins]
  simp [glook, alookup]

theorem map_fst_insGroup {κ α : Type} [DecidableEq κ] (k : κ) (x : α)
    (G : List (κ × List α)) :
    (insGroup k x G).map Prod.fst =
      if k ∈ G.map Prod.fst then G.map Prod.fst else G.map Prod.fst ++ [k] := by
  induction G with
  | nil => simp [insGroup]
  | cons p G ih =>
      obtain ⟨k₀, g₀⟩ := p
      by_cases h : k = k₀
      · subst h; simp [insGroup]
      · have h' : ¬k₀ = k := fun hh => h hh.symm
        by_cases hm : k ∈ G.map Prod.fst <;> simp [insGroup, h, h', hm, ih]

theorem insGroup_of_notmem {κ α : Type} [DecidableEq κ] {k : κ} (x : α)
    {G : List (κ × List α)} (h : k ∉ G.map Prod.fst) :
    insGroup k x G = G ++ [(k, [x])] := by
  induction G with
  | nil => simp [insGroup]
  | cons p G ih =>
      obtain ⟨k₀, g₀⟩ := p
      simp only [List.map_cons, List.mem_cons] at h
      push_neg at h
      simp [insGroup, h.1, ih h.2]

theorem keys_nodup_foldl_ins {κ α : Type} [DecidableEq κ] (f : α → κ)
    (xs : List α) (acc : List (κ × List α)) (h : (acc.map Prod.fst).Nodup) :
    ((xs.foldl (fun a x => insGroup (f x) x a) acc).map Prod.fst).Nodup := by
  induction xs generalizing acc with
  | nil => simpa using h
  | cons x xs ih =>
      rw [List.foldl_cons]
      refine ih _ ?_
      rw [map_fst_insGroup]
      by_cases hm : f x ∈ acc.map Prod.fst
      · simpa [hm] using h
      · simp only [hm, if_false]
        exact List.Nodup.append h (List.nodup_singleton _)
          (List.disjoint_singleton.mpr hm)

/-- The keys of a grouping are duplicate-free. -/
theorem keys_nodup_groupByKey {κ α : Type} [DecidableEq κ] (f : α → κ)
    (xs : List α) : ((groupByKey f xs).map Prod.fst).Nodup :=
  keys_nodup_foldl_ins f xs [] (by simp)

theorem alookup_eq_some_of_mem {κ β : Type} [DecidableEq κ]
    {G : List (κ × β)} {k : κ} {v : β} (hnd : (G.map Prod.fst).Nodup)
    (hm : (k, v) ∈ G) : alookup k G = some v := by
  induction G with
  | nil => simp at hm
  | cons p G ih =>
      obtain ⟨k₀, v₀⟩ := p
      simp only [List.map_cons, List.nodup_cons] at hnd
      rcases List.mem_cons.mp hm with h | h
      · rw [show k = k₀ from congrArg Prod.fst h, show v = v₀ from congrArg Prod.snd h]
        simp [alookup]
      · have hk : ¬k = k₀ := by
          rintro rfl
          exact hnd.1 (List.mem_map.mpr ⟨(k, v), h, rfl⟩)
        simp [alookup, hk, ih hnd.2 h]

theorem mem_of_alookup_eq_some {κ β : Type} [DecidableEq κ]
    {G : List (κ × β)} {k : κ} {v : β} (h : alookup k G = some v) : (k, v) ∈ G := by
  induction G with
  | nil => simp [alookup] at h
  | cons p G ih =>
      obtain ⟨k₀, v₀⟩ := p
      by_cases hk : k = k₀
      · subst hk
        simp [alookup] at h
        subst h
        exact List.mem_cons_self _ _
      · simp only [alookup, if_neg hk] at h
        exact List.mem_cons_of_mem _ (ih h)

theorem mem_keys_foldl_ins {κ α : Type} [DecidableEq κ] (f : α → κ) (k : κ)
    (xs : List α) (acc : List (κ × List α)) :
    k ∈ (xs.foldl (fun a x => insGroup (f x) x a) acc).map Prod.fst ↔
      k ∈ acc.map Prod.fst ∨ ∃ x ∈ xs, f x = k := by
  induction xs generalizing acc with
  | nil => simp
  | cons x xs ih =>
      rw [List.foldl_cons, ih, map_fst_insGroup]
      by_cases hm : f x ∈ acc.map Prod.fst
      · simp only [hm, if_true]
        constructor
        · rintro (h | ⟨y, hy, hfy⟩)
          · exact Or.inl h
          · exact Or.inr ⟨y, List.mem_cons_of_mem _ hy, hfy⟩
        · rintro (h | ⟨y, hy, hfy⟩)
          · exact Or.inl h
          · rcases List.mem_cons.mp hy with rfl | hy
            · exact Or.inl (hfy ▸ hm)
            · exact Or.inr ⟨y, hy, hfy⟩
      · simp only [hm, if_false, List.mem_append, List.mem_singleton]
        constructor
        · rintro ((h | h) | ⟨y, hy, hfy⟩)
          · exact Or.inl h
          · exact Or.inr ⟨x, List.mem_cons_self _ _, h.symm⟩
          · exact Or.inr ⟨y, List.mem_cons_of_mem _ hy, hfy⟩
        · rintro (h | ⟨y, hy, hfy⟩)
          · exact Or.inl (Or.inl h)
          · rcases List.mem_cons.mp hy with rfl | hy
            · exact Or.inl (Or.inr hfy.symm)
            · exact Or.inr ⟨y, hy, hfy⟩

theorem mem_keys_groupByKey {κ α : Type} [DecidableEq κ] (f : α → κ) (k : κ)
    (xs : List α) :
    k ∈ (groupByKey f xs).map Prod.fst ↔ ∃ x ∈ xs, f x = k := by
  unfold groupByKey
  rw [mem_keys_foldl_ins]
  simp

/-- Every group of `groupByKey` is the filtered sublist of its key, is
nonempty, and contains only elements of its key. -/
theorem mem_groupByKey_props {κ α : Type} [DecidableEq κ] {f : α → κ}
    {xs : List α} {k : κ} {g : List α} (h : (k, g) ∈ groupByKey f xs) :
    g = xs.filter (fun x => decide (f x = k)) ∧ g ≠ [] ∧ ∀ x ∈ g, f x = k := by
  have hl : alookup k (groupByKey f xs) = some g :=
    alookup_eq_some_of_mem (keys_nodup_groupByKey f xs) h
  have hg : g = xs.filter (fun x => decide (f x = k)) := by
    have hgl := glook_groupByKey f k xs
    rw [glook, hl] at hgl
    simpa using hgl
  have hkm : k ∈ (groupByKey f xs).map Prod.fst :=
    List.mem_map.mpr ⟨(k, g), h, rfl⟩
  obtain ⟨x, hx, hfx⟩ := (mem_keys_groupByKey f k xs).mp hkm
  refine ⟨hg, ?_, ?_⟩
  · intro hnil
    rw [hg] at hnil
    have hxm : x ∈ xs.filter (fun x => decide (f x = k)) :=
      List.mem_filter.mpr ⟨hx, by simpa using hfx⟩
    simp [hnil] at hxm
  · intro y hy
    rw [hg] at hy
    simpa using (List.mem_filter.mp hy).2

theorem flatten_insGroup_perm {κ α : Type} [DecidableEq κ] (k : κ) (x : α)
    (G : List (κ × List α)) :
    ((insGroup k x G).flatMap Prod.snd).Perm (x :: G.flatMap Prod.snd) := by
  induction G with
  | nil => simp [insGroup]
  | cons p G ih =>
      obtain ⟨k₀, g₀⟩ := p
      by_cases h : k = k₀
      · subst h
        have hig : insGroup k x ((k, g₀) :: G) = (k, g₀ ++ [x]) :: G := by
          simp [insGroup]
        rw [hig, List.flatMap_cons, List.append_assoc]
        exact List.perm_middle
      · simp only [insGroup, if_neg h, List.flatMap_cons]
        exact (List.Perm.append_left g₀ ih).trans List.perm_middle

/-- Flattening a grouping is a permutation of the original list. -/
theorem flatten_groupByKey_perm {κ α : Type} [DecidableEq κ] (f : α → κ)
    (xs : List α) : ((groupByKey f xs).flatMap Prod.snd).Perm xs := by
  induction xs using List.reverseRecOn with
  | nil => simp [groupByKey]
  | append_singleton xs x ih =>
      have hgb : groupByKey f (xs ++ [x]) = insGroup (f x) x (groupByKey f xs) := by
        unfold groupByKey
        rw [List.foldl_append]
        rfl
      rw [hgb]
      refine (flatten_insGroup_perm _ _ _).trans ?_
      refine (ih.cons x).trans ?_
      have hmid := @List.perm_middle _ x xs []
      simp only [List.append_nil] at hmid
      exact hmid.symm

/-- Grouping a list whose keys are already duplicate-free produces only
singleton groups, in order. -/
theorem groupByKey_of_nodup {κ α : Type} [DecidableEq κ] (f : α → κ)
    (xs : List α) (h : (xs.map f).Nodup) :
    groupByKey f xs = xs.map (fun x => (f x, [x])) := by
  induction xs using List.reverseRecOn with
  | nil => simp [groupByKey]
  | append_singleton xs x ih =>
      rw [List.map_append] at h
      obtain ⟨h1, _, hd⟩ := List.nodup_append.mp h
      have hx : f x ∉ xs.map f := fun hm => hd hm (List.mem_singleton.mpr rfl)
      have hgb : groupByKey f (xs ++ [x]) = insGroup (f x) x (groupByKey f xs) := by
        unfold groupByKey
        rw [List.foldl_append]
        rfl
      have hkeys : f x ∉ (xs.map (fun y => (f y, [y]))).map Prod.fst := by
        simpa [List.map_map, Function.comp] using hx
      rw [hgb, ih h1, insGroup_of_notmem x hkeys]
      simp

theorem insGroup_append_last {κ α : Type} [DecidableEq κ] (k : κ) (x : α)
    (l : List α) (acc : List (κ × List α)) (hk : k ∉ acc.map Prod.fst) :
    insGroup k x (acc ++ [(k, l)]) = acc ++ [(k, l ++ [x])] := by
  induction acc with
  | nil => simp [insGroup]
  | cons p acc ih =>
      obtain ⟨k₀, g₀⟩ := p
      simp only [List.map_cons, List.mem_cons] at hk
      push_neg at hk
      simp [insGroup, hk.1, ih hk.2]

theorem foldl_ins_all_key {κ α : Type} [DecidableEq κ] (f : α → κ) (k : κ)
    (g : List α) (acc : List (κ × List α)) (l : List α)
    (hg : ∀ x ∈ g, f x = k) (hk : k ∉ acc.map Prod.fst) :
    g.foldl (fun a x => insGroup (f x) x a) (acc ++ [(k, l)]) =
      acc ++ [(k, l ++ g)] := by
  induction g generalizing l with
  | nil => simp
  | cons x g ih =>
      rw [List.foldl_cons, hg x (List.mem_cons_self _ _),
        insGroup_append_last k x l acc hk,
        ih _ (fun y hy => hg y (List.mem_cons_of_mem _ hy))]
      simp

theorem foldl_ins_group {κ α : Type} [DecidableEq κ] (f : α → κ) (k : κ)
    (g : List α) (acc : List (κ × List α)) (hg : ∀ x ∈ g, f x = k)
    (hne : g ≠ []) (hk : k ∉ acc.map Prod.fst) :
    g.foldl (fun a x => insGroup (f x) x a) acc = acc ++ [(k, g)] := by
  cases g with
  | nil => exact absurd rfl hne
  | cons x g =>
      rw [List.foldl_cons, hg x (List.mem_cons_self _ _), insGroup_of_notmem x hk,
        foldl_ins_all_key f k g acc [x]
          (fun y hy => hg y (List.mem_cons_of_mem _ hy)) hk]
      rfl

theorem foldl_ins_flatten {κ α : Type} [DecidableEq κ] (f : α → κ)
    (G : List (κ × List α)) (acc : List (κ × List α))
    (hnd : (G.map Prod.fst).Nodup)
    (hne : ∀ p ∈ G, p.2 ≠ [])
    (hco : ∀ p ∈ G, ∀ x ∈ p.2, f x = p.1)
    (hdisj : ∀ k ∈ G.map Prod.fst, k ∉ acc.map Prod.fst) :
    (G.flatMap Prod.snd).foldl (fun a x => insGroup (f x) x a) acc = acc ++ G := by
  revert hnd hne hco hdisj
  induction G generalizing acc with
  | nil =>
      intro _ _ _ _
      simp
  | cons p G ih =>
      intro hnd hne hco hdisj
      obtain ⟨k, g⟩ := p
      simp only [List.map_cons, List.nodup_cons] at hnd
      have hdisj' : ∀ k' ∈ G.map Prod.fst, k' ∉ (acc ++ [(k, g)]).map Prod.fst := by
        intro k' hk'
        simp only [List.map_append, List.mem_append, List.map_cons, List.map_nil,
          List.mem_singleton]
        push_neg
        refine ⟨hdisj k' (by simp [hk']), ?_⟩
        rintro rfl
        exact hnd.1 hk'
      rw [List.flatMap_cons, List.foldl_append,
        foldl_ins_group f k g acc (hco (k, g) (List.mem_cons_self _ _))
          (hne (k, g) (List.mem_cons_self _ _)) (hdisj k (by simp)),
        ih (acc ++ [(k, g)]) hnd.2 (fun q hq => hne q (List.mem_cons_of_mem _ hq))
          (fun q hq => hco q (List.mem_cons_of_mem _ hq)) hdisj']
      simp

/-- Regrouping the flattening of a coherent grouping reproduces it. -/
theorem groupByKey_flatten_self {κ α : Type} [DecidableEq κ] (f : α → κ)
    (G : List (κ × List α))
    (hnd : (G.map Prod.fst).Nodup)
    (hne : ∀ p ∈ G, p.2 ≠ [])
    (hco : ∀ p ∈ G, ∀ x ∈ p.2, f x = p.1) :
    groupByKey f (G.flatMap Prod.snd) = G := by
  unfold groupByKey
  rw [foldl_ins_flatten f G [] hnd hne hco (by simp)]
  simp

/-! ## Lemmas: merged phase -/

theorem mergeGroup_nil : mergeGroup [] = [] := rfl

theorem mergeGroup_singleton (r : RawResult) : mergeGroup [r] = [r] := rfl

/-- A nonempty group with constant pair key merges to exactly one record with
that pair key (`mod_name` and `key_name` are never recomputed). -/
theorem mergeGroup_eq_single {g : List RawResult} {k : String × String}
    (hne : g ≠ []) (hco : ∀ r ∈ g, pairKey r = k) :
    ∃ m, mergeGroup g = [m] ∧ pairKey m = k := by
  cases g with
  | nil => exact absurd rfl hne
  | cons first rest =>
      cases rest with
      | nil => exact ⟨first, rfl, hco first (List.mem_cons_self _ _)⟩
      | cons snd rest =>
          refine ⟨_, rfl, ?_⟩
          have hf := hco first (List.mem_cons_self _ _)
          simpa [mergeGroup, pairKey] using hf

theorem flatMap_mergeGroup_keys (G : List ((String × String) × List RawResult))
    (hne : ∀ p ∈ G, p.2 ≠ []) (hco : ∀ p ∈ G, ∀ r ∈ p.2, pairKey r = p.1) :
    (G.flatMap (fun p => mergeGroup p.2)).map pairKey = G.map Prod.fst := by
  induction G with
  | nil => simp
  | cons p G ih =>
      obtain ⟨k, g⟩ := p
      obtain ⟨m, hm, hk⟩ :=
        mergeGroup_eq_single (hne (k, g) (List.mem_cons_self _ _))
          (hco (k, g) (List.mem_cons_self _ _))
      rw [List.flatMap_cons, List.map_append, hm,
        ih (fun q hq => hne q (List.mem_cons_of_mem _ hq))
          (fun q hq => hco q (List.mem_cons_of_mem _ hq))]
      simp [hk]

theorem mergedPhase_keys (rs : List RawResult) :
    (mergedPhase rs).map pairKey = (groupByKey pairKey rs).map Prod.fst := by
  unfold mergedPhase
  refine flatMap_mergeGroup_keys _ ?_ ?_
  · intro p hp
    obtain ⟨k, g⟩ := p
    exact (mem_groupByKey_props hp).2.1
  · intro p hp
    obtain ⟨k, g⟩ := p
    exact (mem_groupByKey_props hp).2.2

/-- After the intra-mod merge, `(mod_name, key_name)` pairs are unique. -/
theorem mergedPhase_pair_nodup (rs : List RawResult) :
    ((mergedPhase rs).map pairKey).Nodup := by
  rw [mergedPhase_keys]
  exact keys_nodup_groupByKey pairKey rs

theorem filter_flatMap_merge_of_notmem
    (G : List ((String × String) × List RawResult)) (K : String × String)
    (hne : ∀ p ∈ G, p.2 ≠ []) (hco : ∀ p ∈ G, ∀ r ∈ p.2, pairKey r = p.1)
    (hK : K ∉ G.map Prod.fst) :
    (G.flatMap (fun p => mergeGroup p.2)).filter (fun r => decide (pairKey r = K)) = [] := by
  rw [List.filter_eq_nil_iff]
  intro r hr
  have hmem : pairKey r ∈ (G.flatMap (fun p => mergeGroup p.2)).map pairKey :=
    List.mem_map_of_mem _ hr
  rw [flatMap_mergeGroup_keys G hne hco] at hmem
  simp only [decide_eq_true_eq]
  rintro rfl
  exact hK hmem

theorem filter_flatMap_merge (G : List ((String × String) × List RawResult))
    (K : String × String) (hnd : (G.map Prod.fst).Nodup)
    (hne : ∀ p ∈ G, p.2 ≠ []) (hco : ∀ p ∈ G, ∀ r ∈ p.2, pairKey r = p.1) :
    (G.flatMap (fun p => mergeGroup p.2)).filter (fun r => decide (pairKey r = K)) =
      mergeGroup (glook K G) := by
  induction G with
  | nil => simp [glook, alookup, mergeGroup]
  | cons p G ih =>
      obtain ⟨k, g⟩ := p
      simp only [List.map_cons, List.nodup_cons] at hnd
      obtain ⟨m, hm, hk⟩ :=
        mergeGroup_eq_single (hne (k, g) (List.mem_cons_self _ _))
          (hco (k, g) (List.mem_cons_self _ _))
      rw [List.flatMap_cons, List.filter_append, hm]
      by_cases hK : K = k
      · subst hK
        rw [filter_flatMap_merge_of_notmem G K
            (fun q hq => hne q (List.mem_cons_of_mem _ hq))
            (fun q hq => hco q (List.mem_cons_of_mem _ hq)) hnd.1]
        have hgl : glook K ((K, g) :: G) = g := by simp [glook, alookup]
        rw [hgl, hm]
        simp [List.filter_cons, hk]
      · have hmK : ¬pairKey m = K := by
          rw [hk]
          exact fun hh => hK hh.symm
        rw [glook_cons_ne g G hK,
          ih hnd.2 (fun q hq => hne q (List.mem_cons_of_mem _ hq))
            (fun q hq => hco q (List.mem_cons_of_mem _ hq))]
        simp [List.filter_cons, hmK]

/-- The records of the merged phase with a given `(mod_name, key_name)` pair
are exactly the merge of the raw records with that pair. -/
theorem filter_mergedPhase (rs : List RawResult) (K : String × String) :
    (mergedPhase rs).filter (fun r => decide (pairKey r = K)) =
      mergeGroup (rs.filter (fun r => decide (pairKey r = K))) := by
  unfold mergedPhase
  rw [filter_flatMap_merge _ K (keys_nodup_groupByKey pairKey rs)
      (fun p hp => (mem_groupByKey_props hp).2.1)
      (fun p hp => (mem_groupByKey_props hp).2.2),
    glook_groupByKey]

theorem mods_nodup_of_pair_nodup {k : String} :
    ∀ l : List RawResult, (∀ r ∈ l, r.key_name = k) →
      (l.map pairKey).Nodup → (l.map (·.mod_name)).Nodup := by
  intro l
  induction l with
  | nil =>
      intro _ _
      simp
  | cons r l ih =>
      intro hkey hnd
      simp only [List.map_cons, List.nodup_cons] at hnd ⊢
      refine ⟨?_, ih (fun x hx => hkey x (List.mem_cons_of_mem _ hx)) hnd.2⟩
      intro hmem
      obtain ⟨r', hr', hmod⟩ := List.mem_map.mp hmem
      apply hnd.1
      refine List.mem_map.mpr ⟨r', hr', ?_⟩
      simp [pairKey, hmod, hkey r (List.mem_cons_self _ _),
        hkey r' (List.mem_cons_of_mem _ hr')]

theorem flatMap_merge_singletons (l : List RawResult) :
    (l.map (fun r => (pairKey r, [r]))).flatMap (fun p => mergeGroup p.2) = l := by
  induction l with
  | nil => rfl
  | cons r l ih => simp [List.flatMap_cons, mergeGroup_singleton, ih]

/-- C1: in the aggregated mapping, every entry has pairwise distinct
`(mod_name, key_name)` pairs, and an entry is a conflict (as derived by the
viewers: more than one record) exactly when it contains at least two distinct
`mod_name` values. -/
theorem aggregated_entry_mods_unique (rs : List RawResult) (k : String)
    (entry : List RawResult) (h : (k, entry) ∈ aggregate_results rs) :
    (entry.map (fun r => (r.mod_name, r.key_name))).Nodup ∧
      (hasConflict entry = true ↔ 2 ≤ ((entry.map (·.mod_name)).dedup).length) := by
  unfold aggregate_results at h
  obtain ⟨hfil, hne, hkey⟩ := mem_groupByKey_props h
  have hsub : List.Sublist entry (mergedPhase rs) := by
    rw [hfil]
    exact List.filter_sublist _
  have hpair : (entry.map pairKey).Nodup :=
    (mergedPhase_pair_nodup rs).sublist (hsub.map pairKey)
  have hmods : (entry.map (·.mod_name)).Nodup :=
    mods_nodup_of_pair_nodup entry hkey hpair
  refine ⟨hpair, ?_⟩
  rw [List.dedup_eq_self.mpr hmods, List.length_map]
  unfold hasConflict
  simp only [decide_eq_true_eq]
  omega

theorem aggregated_entry_mods_unique_witness :
    (("K", [stampMod "ModA" true ⟨"a", 1, "K", "c1", "m1"⟩,
            stampMod "ModB" true ⟨"b", 2, "K", "c2", "m2"⟩]) ∈
        aggregate_results [stampMod "ModA" true ⟨"a", 1, "K", "c1", "m1"⟩,
          stampMod "ModB" true ⟨"b", 2, "K", "c2", "m2"⟩]) ∧
      (([stampMod "ModA" true ⟨"a", 1, "K", "c1", "m1"⟩,
         stampMod "ModB" true ⟨"b", 2, "K", "c2", "m2"⟩].map
          (fun r => (r.mod_name, r.key_name))).Nodup ∧
        (hasConflict [stampMod "ModA" true ⟨"a", 1, "K", "c1", "m1"⟩,
            stampMod "ModB" true ⟨"b", 2, "K", "c2", "m2"⟩] = true ↔
          2 ≤ (([stampMod "ModA" true ⟨"a", 1, "K", "c1", "m1"⟩,
              stampMod "ModB" true ⟨"b", 2, "K", "c2", "m2"⟩].map
                (·.mod_name)).dedup).length)) :=
  ⟨by decide,
    aggregated_entry_mods_unique
      [stampMod "ModA" true ⟨"a", 1, "K", "c1", "m1"⟩,
        stampMod "ModB" true ⟨"b", 2, "K", "c2", "m2"⟩] "K"
      [stampMod "ModA" true ⟨"a", 1, "K", "c1", "m1"⟩,
        stampMod "ModB" true ⟨"b", 2, "K", "c2", "m2"⟩] (by decide)⟩

/-- C3: re-running the two-phase merge on the flattening of its own output is
the identity — every `(mod_name, key_name)` pair occurs once in the flattened
output, so phase 1 passes every record through unchanged and phase 2 rebuilds
the same mapping. -/
theorem aggregate_idempotent (rs : List RawResult) :
    aggregate_results (flattenAggregated (aggregate_results rs)) =
      aggregate_results rs := by
  have hFperm : (flattenAggregated (aggregate_results rs)).Perm (mergedPhase rs) := by
    unfold flattenAggregated aggregate_results
    exact flatten_groupByKey_perm (fun r : RawResult => r.key_name) (mergedPhase rs)
  have hFnd : ((flattenAggregated (aggregate_results rs)).map pairKey).Nodup :=
    ((hFperm.map pairKey).symm).nodup (mergedPhase_pair_nodup rs)
  have hmp : mergedPhase (flattenAggregated (aggregate_results rs)) =
      flattenAggregated (aggregate_results rs) := by
    unfold mergedPhase
    rw [groupByKey_of_nodup pairKey _ hFnd]
    exact flatMap_merge_singletons _
  have hre : groupByKey (fun r : RawResult => r.key_name)
      (flattenAggregated (aggregate_results rs)) = aggregate_results rs := by
    unfold flattenAggregated
    refine groupByKey_flatten_self _ _ ?_ ?_ ?_
    · unfold aggregate_results
      exact keys_nodup_groupByKey _ _
    · intro p hp
      obtain ⟨k, g⟩ := p
      unfold aggregate_results at hp
      exact (mem_groupByKey_props hp).2.1
    · intro p hp
      obtain ⟨k, g⟩ := p
      unfold aggregate_results at hp
      exact (mem_groupByKey_props hp).2.2
  calc aggregate_results (flattenAggregated (aggregate_results rs))
      = groupByKey (fun r : RawResult => r.key_name)
          (mergedPhase (flattenAggregated (aggregate_results rs))) := rfl
    _ = groupByKey (fun r : RawResult => r.key_name)
          (flattenAggregated (aggregate_results rs)) := by rw [hmp]
    _ = aggregate_results rs := hre

/-! ## Lemmas: merged-record fields (C2 / C10) -/

theorem dedupAux_map_inj {α β : Type} [DecidableEq α] [DecidableEq β]
    (h : α → β) (hinj : ∀ a b, h a = h b → a = b) (acc l : List α) :
    dedupAux (acc.map h) (l.map h) = (dedupAux acc l).map h := by
  induction l generalizing acc with
  | nil => simp [dedupAux]
  | cons x l ih =>
      simp only [List.map_cons, dedupAux]
      by_cases hm : x ∈ acc
      · rw [if_pos (List.mem_map_of_mem h hm), if_pos hm, ih]
      · have hm' : h x ∉ acc.map h := by
          intro hc
          obtain ⟨a, ha, he⟩ := List.mem_map.mp hc
          exact hm (hinj a x he ▸ ha)
        rw [if_neg hm', if_neg hm,
          show List.map h acc ++ [h x] = List.map h (acc ++ [x]) by simp, ih]

theorem dedupFirst_map_inj {α β : Type} [DecidableEq α] [DecidableEq β]
    (h : α → β) (hinj : ∀ a b, h a = h b → a = b) (l : List α) :
    dedupFirst (l.map h) = (dedupFirst l).map h := by
  unfold dedupFirst
  rw [show ([] : List β) = ([] : List α).map h from rfl, dedupAux_map_inj h hinj]

theorem insertLe_map_hom {α β : Type} (le : α → α → Bool) (le' : β → β → Bool)
    (h : α → β) (hle : ∀ a b, le' (h a) (h b) = le a b) (x : α) (l : List α) :
    insertLe le' (h x) (l.map h) = (insertLe le x l).map h := by
  induction l with
  | nil => simp [insertLe]
  | cons y l ih =>
      simp only [List.map_cons, insertLe, hle]
      by_cases hc : le x y <;> simp [hc, ih]

theorem insSort_map_hom {α β : Type} (le : α → α → Bool) (le' : β → β → Bool)
    (h : α → β) (hle : ∀ a b, le' (h a) (h b) = le a b) (l : List α) :
    insSort le' (l.map h) = (insSort le l).map h := by
  induction l with
  | nil => simp [insSort]
  | cons x l ih =>
      simp only [List.map_cons, insSort, List.foldr_cons]
      rw [show (l.map h).foldr (insertLe le') [] = insSort le' (l.map h) from rfl, ih,
        insertLe_map_hom le le' h hle]
      rfl

theorem map_line_eq_inl {g : List RawResult}
    (hraw : ∀ r ∈ g, (r.line_number).isLeft = true) :
    g.map (·.line_number) =
      (g.filterMap (fun r => r.line_number.getLeft?)).map Sum.inl := by
  induction g with
  | nil => rfl
  | cons r g ih =>
      obtain ⟨n, hn⟩ := Sum.isLeft_iff.mp (hraw r (List.mem_cons_self _ _))
      have ih' := ih (fun x hx => hraw x (List.mem_cons_of_mem _ hx))
      simp [List.filterMap_cons, hn, ih']

/-- On groups of integer line numbers, the code's sort over `Nat ⊕ String`
computes the spec's numeric sort. -/
theorem merged_lines_eq (g : List RawResult)
    (hraw : ∀ r ∈ g, (r.line_number).isLeft = true) :
    (insSort lineLe (dedupFirst (g.map (·.line_number)))).map lineStr =
      (insSort natLe (dedupFirst (g.filterMap (fun r => r.line_number.getLeft?)))).map
        (fun n => toString n) := by
  rw [map_line_eq_inl hraw,
    dedupFirst_map_inj Sum.inl (fun a b hh => Sum.inl.inj hh),
    insSort_map_hom natLe lineLe Sum.inl (fun a b => rfl),
    List.map_map]
  rfl

/-- The merge of a multi-record group computes exactly the spec-worded fields
on a copy of the first record. -/
theorem mergeGroup_fields (first snd : RawResult) (rest : List RawResult)
    (hraw : ∀ r ∈ first :: snd :: rest, (r.line_number).isLeft = true) :
    mergeGroup (first :: snd :: rest) =
      [{ first with
          file_path := specSortedFiles (first :: snd :: rest)
          line_number := Sum.inr (specSortedLines (first :: snd :: rest))
          context := specContexts (first :: snd :: rest) }] := by
  simp only [mergeGroup, specSortedFiles, specSortedLines, specContexts]
  rw [merged_lines_eq _ hraw]

/-- The records of key `k` and mod `m` inside the aggregated entry of `k` are
the merge of the raw `(m, k)` group. -/
theorem entry_filter_eq (rs : List RawResult) (m k : String) :
    (glook k (aggregate_results rs)).filter (fun r => decide (r.mod_name = m)) =
      mergeGroup (rs.filter (fun r => decide (pairKey r = (m, k)))) := by
  have h1 : glook k (aggregate_results rs) =
      (mergedPhase rs).filter (fun r => decide (r.key_name = k)) :=
    glook_groupByKey _ _ _
  rw [h1, List.filter_filter]
  have h2 : (fun r => decide (r.mod_name = m) && decide (r.key_name = k)) =
      (fun r : RawResult => decide (pairKey r = (m, k))) := by
    funext r
    simp [pairKey, Prod.ext_iff]
  rw [h2, filter_mergedPhase]

/-- C2: `aggregate_results` groups raw matches by `(mod_name, key_name)`; a
group of one record appears in its key's aggregated entry unchanged, and a
group of several records appears as a single merged record whose `file_path`,
`line_number` and `context` are the spec-worded merged fields and whose
`mod_name`, `key_name` and `mod_enabled` come from the group. -/
theorem aggregate_merge_matches_spec (rs : List RawResult) (m k : String)
    (first : RawResult) (rest : List RawResult)
    (hraw : ∀ r ∈ rs, (r.line_number).isLeft = true)
    (hg : rs.filter (fun r => decide (pairKey r = (m, k))) = first :: rest) :
    (rest = [] →
      (glook k (aggregate_results rs)).filter (fun r => decide (r.mod_name = m)) =
        [first]) ∧
    (rest ≠ [] →
      ∃ mr,
        (glook k (aggregate_results rs)).filter (fun r => decide (r.mod_name = m)) =
          [mr] ∧
        mr.file_path = specSortedFiles (first :: rest) ∧
        mr.line_number = Sum.inr (specSortedLines (first :: rest)) ∧
        mr.context = specContexts (first :: rest) ∧
        mr.mod_name = m ∧ mr.key_name = k ∧ mr.mod_enabled = first.mod_enabled) := by
  have he := entry_filter_eq rs m k
  rw [hg] at he
  have hfirst : pairKey first = (m, k) := by
    have hmem : first ∈ rs.filter (fun r => decide (pairKey r = (m, k))) := by
      rw [hg]
      exact List.mem_cons_self _ _
    simpa using (List.mem_filter.mp hmem).2
  constructor
  · rintro rfl
    rw [he, mergeGroup_singleton]
  · intro hne
    cases rest with
    | nil => exact absurd rfl hne
    | cons snd rest =>
        have hraw' : ∀ r ∈ first :: snd :: rest, (r.line_number).isLeft = true := by
          intro r hr
          have hrm : r ∈ rs.filter (fun r => decide (pairKey r = (m, k))) := by
            rw [hg]
            exact hr
          exact hraw r (List.mem_of_mem_filter hrm)
        rw [he, mergeGroup_fields first snd rest hraw']
        refine ⟨_, rfl, rfl, rfl, rfl, ?_, ?_, rfl⟩
        · exact congrArg Prod.fst hfirst
        · exact congrArg Prod.snd hfirst

theorem aggregate_merge_matches_spec_witness :
    ((∀ r ∈ [stampMod "M" true ⟨"b.lua", 5, "K", "cB", "t1"⟩,
        stampMod "M" true ⟨"a.lua", 3, "K", "cA", "t2"⟩],
        (r.line_number).isLeft = true) ∧
      [stampMod "M" true ⟨"b.lua", 5, "K", "cB", "t1"⟩,
        stampMod "M" true ⟨"a.lua", 3, "K", "cA", "t2"⟩].filter
          (fun r => decide (pairKey r = ("M", "K"))) =
        stampMod "M" true ⟨"b.lua", 5, "K", "cB", "t1"⟩ ::
          [stampMod "M" true ⟨"a.lua", 3, "K", "cA", "t2"⟩]) ∧
    (([stampMod "M" true ⟨"a.lua", 3, "K", "cA", "t2"⟩] = []) →
      (glook "K" (aggregate_results
          [stampMod "M" true ⟨"b.lua", 5, "K", "cB", "t1"⟩,
            stampMod "M" true ⟨"a.lua", 3, "K", "cA", "t2"⟩])).filter
        (fun r => decide (r.mod_name = "M")) =
        [stampMod "M" true ⟨"b.lua", 5, "K", "cB", "t1"⟩]) ∧
    (([stampMod "M" true ⟨"a.lua", 3, "K", "cA", "t2"⟩] ≠ []) →
      ∃ mr,
        (glook "K" (aggregate_results
            [stampMod "M" true ⟨"b.lua", 5, "K", "cB", "t1"⟩,
              stampMod "M" true ⟨"a.lua", 3, "K", "cA", "t2"⟩])).filter
          (fun r => decide (r.mod_name = "M")) = [mr] ∧
        mr.file_path = specSortedFiles
          (stampMod "M" true ⟨"b.lua", 5, "K", "cB", "t1"⟩ ::
            [stampMod "M" true ⟨"a.lua", 3, "K", "cA", "t2"⟩]) ∧
        mr.line_number = Sum.inr (specSortedLines
          (stampMod "M" true ⟨"b.lua", 5, "K", "cB", "t1"⟩ ::
            [stampMod "M" true ⟨"a.lua", 3, "K", "cA", "t2"⟩])) ∧
        mr.context = specContexts
          (stampMod "M" true ⟨"b.lua", 5, "K", "cB", "t1"⟩ ::
            [stampMod "M" true ⟨"a.lua", 3, "K", "cA", "t2"⟩]) ∧
        mr.mod_name = "M" ∧ mr.key_name = "K" ∧
        mr.mod_enabled = (stampMod "M" true ⟨"b.lua", 5, "K", "cB", "t1"⟩).mod_enabled) :=
  ⟨⟨by decide, by decide⟩,
    aggregate_merge_matches_spec
      [stampMod "M" true ⟨"b.lua", 5, "K", "cB", "t1"⟩,
        stampMod "M" true ⟨"a.lua", 3, "K", "cA", "t2"⟩] "M" "K"
      (stampMod "M" true ⟨"b.lua", 5, "K", "cB", "t1"⟩)
      [stampMod "M" true ⟨"a.lua", 3, "K", "cA", "t2"⟩]
      (by decide) (by decide)⟩

/-- C10: for a multi-record group, the merged record's `line_number` is a
string while a single-record group keeps its integer `line_number`, and every
field not recomputed by the merge — in particular `matched_text` — is copied
from the group's first-seen record. -/
theorem merged_record_field_provenance (rs : List RawResult) (m k : String)
    (first : RawResult) (rest : List RawResult)
    (hraw : ∀ r ∈ rs, (r.line_number).isLeft = true)
    (hg : rs.filter (fun r => decide (pairKey r = (m, k))) = first :: rest) :
    (rest = [] →
      (glook k (aggregate_results rs)).filter (fun r => decide (r.mod_name = m)) =
        [first] ∧ (first.line_number).isLeft = true) ∧
    (rest ≠ [] →
      ∃ mr,
        (glook k (aggregate_results rs)).filter (fun r => decide (r.mod_name = m)) =
          [mr] ∧
        (mr.line_number).isRight = true ∧
        mr.matched_text = first.matched_text ∧
        mr.key_name = first.key_name ∧
        mr.mod_name = first.mod_name ∧
        mr.mod_enabled = first.mod_enabled) := by
  have he := entry_filter_eq rs m k
  rw [hg] at he
  have hfm : first ∈ rs := by
    refine List.mem_of_mem_filter (p := fun r => decide (pairKey r = (m, k))) ?_
    rw [hg]
    exact List.mem_cons_self _ _
  constructor
  · rintro rfl
    rw [he, mergeGroup_singleton]
    exact ⟨rfl, hraw first hfm⟩
  · intro hne
    cases rest with
    | nil => exact absurd rfl hne
    | cons snd rest =>
        have hraw' : ∀ r ∈ first :: snd :: rest, (r.line_number).isLeft = true := by
          intro r hr
          have hrm : r ∈ rs.filter (fun r => decide (pairKey r = (m, k))) := by
            rw [hg]
            exact hr
          exact hraw r (List.mem_of_mem_filter hrm)
        rw [he, mergeGroup_fields first snd rest hraw']
        exact ⟨_, rfl, rfl, rfl, rfl, rfl, rfl⟩

theorem merged_record_field_provenance_witness :
    ((∀ r ∈ [stampMod "M" true ⟨"b.lua", 5, "K", "cB", "t1"⟩,
        stampMod "M" true ⟨"a.lua", 3, "K", "cA", "t2"⟩],
        (r.line_number).isLeft = true) ∧
      [stampMod "M" true ⟨"b.lua", 5, "K", "cB", "t1"⟩,
        stampMod "M" true ⟨"a.lua", 3, "K", "cA", "t2"⟩].filter
          (fun r => decide (pairKey r = ("M", "K"))) =
        stampMod "M" true ⟨"b.lua", 5, "K", "cB", "t1"⟩ ::
          [stampMod "M" true ⟨"a.lua", 3, "K", "cA", "t2"⟩]) ∧
    (([stampMod "M" true ⟨"a.lua", 3, "K", "cA", "t2"⟩] ≠ []) →
      ∃ mr,
        (glook "K" (aggregate_results
            [stampMod "M" true ⟨"b.lua", 5, "K", "cB", "t1"⟩,
              stampMod "M" true ⟨"a.lua", 3, "K", "cA", "t2"⟩])).filter
          (fun r => decide (r.mod_name = "M")) = [mr] ∧
        (mr.line_number).isRight = true ∧
        mr.matched_text = (stampMod "M" true ⟨"b.lua", 5, "K", "cB", "t1"⟩).matched_text ∧
        mr.key_name = (stampMod "M" true ⟨"b.lua", 5, "K", "cB", "t1"⟩).key_name ∧
        mr.mod_name = (stampMod "M" true ⟨"b.lua", 5, "K", "cB", "t1"⟩).mod_name ∧
        mr.mod_enabled = (stampMod "M" true ⟨"b.lua", 5, "K", "cB", "t1"⟩).mod_enabled) :=
  ⟨⟨by decide, by decide⟩,
    (merged_record_field_provenance
      [stampMod "M" true ⟨"b.lua", 5, "K", "cB", "t1"⟩,
        stampMod "M" true ⟨"a.lua", 3, "K", "cA", "t2"⟩] "M" "K"
      (stampMod "M" true ⟨"b.lua", 5, "K", "cB", "t1"⟩)
      [stampMod "M" true ⟨"a.lua", 3, "K", "cA", "t2"⟩]
      (by decide) (by decide)).2⟩

/-! ## Lemmas: status manifest -/

theorem alookup_dictSet {κ β : Type} [DecidableEq κ] (k k' : κ) (v : β)
    (d : List (κ × β)) :
    alookup k' (dictSet k v d) = if k' = k then some v else alookup k' d := by
  induction d with
  | nil => by_cases h : k' = k <;> simp [dictSet, alookup, h]
  | cons p d ih =>
      obtain ⟨k₀, v₀⟩ := p
      by_cases h0 : k₀ = k
      · subst h0
        by_cases h : k' = k₀ <;> simp [dictSet, alookup, h]
      · by_cases h : k' = k₀
        · subst h
          simp [dictSet, alookup, h0]
        · simp [dictSet, alookup, h0, h, ih]

theorem parseStep_eq (acc : List (String × Bool)) (e : ModElem) :
    parseStep acc e =
      match derivedEntry e with
      | some p => dictSet p.1 p.2 acc
      | none => acc := by
  obtain ⟨oid, oact⟩ := e
  cases oid with
  | none => rfl
  | some mid =>
      by_cases hm : mid = ""
      · simp [parseStep, derivedEntry, hm]
      · cases hsp : splitAfterFirst '-' mid.data with
        | none => simp [parseStep, derivedEntry, hm, hsp]
        | some rest => simp [parseStep, derivedEntry, hm, hsp]

theorem parse_foldl_eq (mods : List ModElem) (acc : List (String × Bool)) :
    mods.foldl parseStep acc =
      (derivedEntries mods).foldl (fun d p => dictSet p.1 p.2 d) acc := by
  induction mods generalizing acc with
  | nil => rfl
  | cons e mods ih =>
      rw [List.foldl_cons, parseStep_eq]
      unfold derivedEntries
      rw [List.filterMap_cons]
      cases hde : derivedEntry e with
      | none => simpa [hde] using ih acc
      | some p => simpa [hde] using ih (dictSet p.1 p.2 acc)

theorem alookup_build_last {κ β : Type} [DecidableEq κ] (es : List (κ × β)) (k : κ) :
    alookup k (es.foldl (fun d p => dictSet p.1 p.2 d) []) = alookup k es.reverse := by
  induction es using List.reverseRecOn with
  | nil => rfl
  | append_singleton es p ih =>
      obtain ⟨k₀, v₀⟩ := p
      rw [List.foldl_append, List.foldl_cons, List.foldl_nil, alookup_dictSet,
        List.reverse_append]
      simp only [List.reverse_cons, List.reverse_nil, List.nil_append,
        List.singleton_append]
      by_cases h : k = k₀ <;> simp [alookup, h, ih]

theorem alookup_append_of_notmem {κ β : Type} [DecidableEq κ] {l₁ : List (κ × β)}
    (l₂ : List (κ × β)) {k : κ} (h : ∀ p ∈ l₁, p.1 ≠ k) :
    alookup k (l₁ ++ l₂) = alookup k l₂ := by
  induction l₁ with
  | nil => rfl
  | cons p l₁ ih =>
      obtain ⟨k₀, v₀⟩ := p
      have hk : ¬k = k₀ := fun hh => h (k₀, v₀) (List.mem_cons_self _ _) hh.symm
      simp only [List.cons_append, alookup, if_neg hk]
      exact ih (fun q hq => h q (List.mem_cons_of_mem _ hq))

/-- C6 counterexample: the value stored for a mod element is the
case-insensitive comparison of `active` with `"true"` (here `active="TRUE"`
maps to `true` although `"TRUE" == "true"` is false), and a later element
deriving the same directory basename overwrites an earlier one's entry (here
the first element has `active="true"` yet the final mapping holds `false`). -/
theorem parse_status_claim_cex :
    parseModStatus (.doc [⟨some "steam-X", some "TRUE"⟩]) = [("X", true)] ∧
      (("TRUE" == "true") = false) ∧
      parseModStatus (.doc [⟨some "steam-X", some "true"⟩,
        ⟨some "local-X", some "false"⟩]) = [("X", false)] := by
  refine ⟨by decide, by decide, by decide⟩

/-- The status mapping looks up the last contributed entry for a basename. -/
theorem alookup_parse_doc (mods : List ModElem) (k : String) :
    alookup k (parseModStatus (.doc mods)) =
      alookup k (derivedEntries mods).reverse := by
  show alookup k (mods.foldl parseStep []) = _
  rw [parse_foldl_eq, alookup_build_last]

/-- C6 amended: each mod element whose `id` contains the separator contributes
an entry keyed by the substring after the first separator whose value is
whether `active`, lowercased, equals `"true"` (elements with the same derived
key are overridden by later ones: the final mapping looks up the last
contribution); elements whose `id` has no separator contribute nothing; a
malformed manifest yields the empty mapping, under which every mod defaults to
enabled. -/
theorem parse_status_characterization (mods : List ModElem) (k : String) :
    alookup k (parseModStatus (.doc mods)) =
      alookup k (derivedEntries mods).reverse ∧
    parseModStatus .malformed = [] ∧
    (∀ name, modStatusGet (parseModStatus .malformed) name = true) :=
  ⟨alookup_parse_doc mods k, rfl, fun _ => rfl⟩

/-- C7: a mod directory whose basename has no entry in the status mapping gets
`enabled = true`, and hence `mod_enabled = true` is stamped on its matches. -/
theorem status_missing_defaults_enabled (modStatus : List (String × Bool))
    (name : String) (h : alookup name modStatus = none) :
    modStatusGet modStatus name = true ∧
      ∀ (fm : FileMatch) (mn : String),
        (stampMod mn (modStatusGet modStatus name) fm).mod_enabled = true := by
  unfold modStatusGet
  rw [h]
  exact ⟨rfl, fun _ _ => rfl⟩

theorem status_missing_defaults_enabled_witness :
    (alookup "MyMod" [("OtherMod", false)] = none) ∧
      (modStatusGet [("OtherMod", false)] "MyMod" = true ∧
        ∀ (fm : FileMatch) (mn : String),
          (stampMod mn (modStatusGet [("OtherMod", false)] "MyMod") fm).mod_enabled =
            true) :=
  ⟨by decide, status_missing_defaults_enabled [("OtherMod", false)] "MyMod" (by decide)⟩

/-- C9 counterexample: an element whose `id` has a separator but which has no
`active` attribute does not always map its basename to `false` in the final
mapping — a later element with the same derived basename overrides it. -/
theorem missing_active_overridden_cex :
    parseModStatus (.doc [⟨some "local-X", none⟩, ⟨some "steam-X", some "true"⟩]) =
      [("X", true)] := by
  decide

/-- C9 amended: an element whose `id` contains the separator but which has no
`active` attribute maps its directory basename to disabled (`false`) — the
missing attribute defaults to `"false"`, the opposite of the enabled-by-default
rule for mods absent from the mapping — unless a later element derives the same
basename, in which case the later element's value wins. -/
theorem missing_active_maps_disabled (ms₁ ms₂ : List ModElem) (i : String)
    (rest : List Char) (hi : i ≠ "")
    (hsep : splitAfterFirst '-' i.data = some rest)
    (hlater : ∀ e ∈ ms₂, ∀ p, derivedEntry e = some p → p.1 ≠ String.mk rest) :
    alookup (String.mk rest)
        (parseModStatus (.doc (ms₁ ++ ⟨some i, none⟩ :: ms₂))) = some false ∧
      (alookup (String.mk rest) ([] : List (String × Bool)) = none ∧
        modStatusGet [] (String.mk rest) = true) := by
  refine ⟨?_, rfl, rfl⟩
  rw [alookup_parse_doc]
  have hde : derivedEntry ⟨some i, none⟩ = some (String.mk rest, false) := by
    have hact : elemActive ⟨some i, none⟩ = false := rfl
    simp [derivedEntry, hi, hsep, hact]
  unfold derivedEntries
  rw [List.filterMap_append, List.filterMap_cons, hde]
  simp only [List.reverse_append, List.reverse_cons]
  rw [List.append_assoc, alookup_append_of_notmem _ ?later]
  case later =>
    intro p hp
    rw [List.mem_reverse] at hp
    obtain ⟨e, he, hep⟩ := List.mem_filterMap.mp hp
    exact hlater e he p hep
  simp [alookup]

theorem missing_active_maps_disabled_witness :
    (("local-X" : String) ≠ "" ∧
      splitAfterFirst '-' ("local-X" : String).data = some "X".data ∧
      (∀ e ∈ ([] : List ModElem), ∀ p, derivedEntry e = some p →
        p.1 ≠ String.mk "X".data)) ∧
    (alookup (String.mk "X".data)
        (parseModStatus (.doc ([] ++ ⟨some "local-X", none⟩ :: []))) = some false ∧
      (alookup (String.mk "X".data) ([] : List (String × Bool)) = none ∧
        modStatusGet [] (String.mk "X".data) = true)) :=
  ⟨⟨by decide, by decide, by decide⟩,
    missing_active_maps_disabled [] [] "local-X" "X".data (by decide) (by decide)
      (by decide)⟩

/-! ## C4: the four default call forms -/

/-- C4: with the default pattern set and default options, for each of the four
call forms, scanning a line that is (or contains) exactly one `Form("X")` call
yields exactly one raw match with `key_name = "X"` and `matched_text` equal to
the full call expression. -/
theorem default_patterns_single_match (form : String)
    (hf : form = "InputPressed" ∨ form = "InputDown" ∨ form = "InputReleased" ∨
      form = "InputValue") :
    scanLineExc false DEFAULT_PATTERNS "mod/main.lua" 1 (form ++ "(\"X\")") =
      ([{ file_path := "mod/main.lua", line_number := 1, key_name := "X",
          context := form ++ "(\"X\")", matched_text := form ++ "(\"X\")" }],
        false) ∧
    scanLineExc false DEFAULT_PATTERNS "mod/main.lua" 7 ("if " ++ form ++ "(\"X\") then") =
      ([{ file_path := "mod/main.lua", line_number := 7, key_name := "X",
          context := "if " ++ form ++ "(\"X\") then",
          matched_text := form ++ "(\"X\")" }],
        false) := by
  rcases hf with rfl | rfl | rfl | rfl <;> exact ⟨by decide, by decide⟩

theorem default_patterns_single_match_witness :
    (("InputPressed" : String) = "InputPressed" ∨
      ("InputPressed" : String) = "InputDown" ∨
      ("InputPressed" : String) = "InputReleased" ∨
      ("InputPressed" : String) = "InputValue") ∧
    (scanLineExc false DEFAULT_PATTERNS "mod/main.lua" 1 ("InputPressed" ++ "(\"X\")") =
      ([{ file_path := "mod/main.lua", line_number := 1, key_name := "X",
          context := "InputPressed" ++ "(\"X\")",
          matched_text := "InputPressed" ++ "(\"X\")" }],
        false) ∧
    scanLineExc false DEFAULT_PATTERNS "mod/main.lua" 7
        ("if " ++ "InputPressed" ++ "(\"X\") then") =
      ([{ file_path := "mod/main.lua", line_number := 7, key_name := "X",
          context := "if " ++ "InputPressed" ++ "(\"X\") then",
          matched_text := "InputPressed" ++ "(\"X\")" }],
        false)) :=
  ⟨Or.inl rfl, default_patterns_single_match "InputPressed" (Or.inl rfl)⟩

/-! ## C5: pattern validation behaviour -/

theorem tryFromDown_some {α : Type} (f : Nat → Option α) (P : α → Prop)
    (h : ∀ i r, f i = some r → P r) :
    ∀ k r, tryFromDown f k = some r → P r := by
  intro k
  induction k with
  | zero => exact h 0
  | succ i ih =>
      intro r hr
      unfold tryFromDown at hr
      cases hf : f (i + 1) with
      | some v =>
          rw [hf] at hr
          simp only [orElseOpt, Option.some.injEq] at hr
          subst hr
          exact h (i + 1) _ hf
      | none =>
          rw [hf] at hr
          simp only [orElseOpt] at hr
          exact ih r hr

theorem tryFromDownPos_some {α : Type} (f : Nat → Option α) (P : α → Prop)
    (h : ∀ i r, f i = some r → P r) :
    ∀ k r, tryFromDownPos f k = some r → P r := by
  intro k
  induction k with
  | zero =>
      intro r hr
      simp [tryFromDownPos] at hr
  | succ i ih =>
      intro r hr
      unfold tryFromDownPos at hr
      cases hf : f (i + 1) with
      | some v =>
          rw [hf] at hr
          simp only [orElseOpt, Option.some.injEq] at hr
          subst hr
          exact h (i + 1) _ hf
      | none =>
          rw [hf] at hr
          simp only [orElseOpt] at hr
          exact ih r hr

/-- A pattern with no capture group never produces a captured group. -/
theorem matchToks_no_group (ci : Bool) :
    ∀ ts : List Tok, countGroups ts = 0 →
      ∀ (s rem : List Char) (grp : Option String),
        matchToks ci ts s = some (rem, grp) → grp = none := by
  intro ts
  induction ts with
  | nil =>
      intro _ s rem grp h
      simp only [matchToks, Option.some.injEq, Prod.mk.injEq] at h
      exact h.2.symm
  | cons t ts ih =>
      intro hng s rem grp h
      cases t with
      | lit c =>
          have hng' : countGroups ts = 0 := by
            simpa [countGroups, List.countP_cons] using hng
          cases s with
          | nil => simp [matchToks] at h
          | cons a s' =>
              simp only [matchToks] at h
              by_cases hce : charEq ci c a
              · rw [if_pos hce] at h
                exact ih hng' s' rem grp h
              · rw [if_neg hce] at h
                exact absurd h (by simp)
      | cls p =>
          have hng' : countGroups ts = 0 := by
            simpa [countGroups, List.countP_cons] using hng
          cases s with
          | nil => simp [matchToks] at h
          | cons a s' =>
              simp only [matchToks] at h
              by_cases hce : p.test a
              · rw [if_pos hce] at h
                exact ih hng' s' rem grp h
              · rw [if_neg hce] at h
                exact absurd h (by simp)
      | star p =>
          have hng' : countGroups ts = 0 := by
            simpa [countGroups, List.countP_cons] using hng
          simp only [matchToks] at h
          have := tryFromDown_some (fun i => matchToks ci ts (s.drop i))
            (fun r => r.2 = none) ?_ _ (rem, grp) h
          · exact this
          · intro i r hr
            obtain ⟨rem', grp'⟩ := r
            exact ih hng' _ rem' grp' hr
      | gplus p =>
          exact absurd hng (by simp [countGroups, List.countP_cons])
      | eol =>
          have hng' : countGroups ts = 0 := by
            simpa [countGroups, List.countP_cons] using hng
          simp only [matchToks] at h
          by_cases hc : s = [] ∨ s = ['\n']
          · rw [if_pos hc] at h
            exact ih hng' s rem grp h
          · rw [if_neg hc] at h
            exact absurd h (by simp)

theorem finditerAux_no_group (ci : Bool) (pat : List Tok)
    (hng : countGroups pat = 0) :
    ∀ (fuel : Nat) (s : List Char) (pos : Nat) (m : Nat × String × Option String),
      m ∈ finditerAux ci pat fuel s pos → m.2.2 = none := by
  intro fuel
  induction fuel with
  | zero =>
      intro s pos m hm
      simp [finditerAux] at hm
  | succ fuel ih =>
      intro s pos m hm
      have hm' : m ∈ finditerNext (finditerAux ci pat fuel) (matchToks ci pat s) s pos :=
        hm
      unfold finditerNext at hm'
      cases hmt : matchToks ci pat s with
      | none =>
          rw [hmt] at hm'
          cases s with
          | nil => simp at hm'
          | cons a s' => exact ih s' (pos + 1) m hm'
      | some pr =>
          obtain ⟨rem, grp⟩ := pr
          have hgrp : grp = none := matchToks_no_group ci pat hng s rem grp hmt
          rw [hmt] at hm'
          simp only at hm'
          rcases List.mem_cons.mp hm' with rfl | hm''
          · simpa using hgrp
          · by_cases hml : s.length - rem.length = 0
            · rw [if_pos hml] at hm''
              cases s with
              | nil => simp at hm''
              | cons a s' => exact ih s' (pos + 1) m hm''
            · rw [if_neg hml] at hm''
              exact ih rem (pos + (s.length - rem.length)) m hm''

theorem emitMatches_all_none (file : String) (n : Nat) (line : String)
    (ms : List (Nat × String × Option String)) (h : ∀ m ∈ ms, m.2.2 = none) :
    (emitMatches file n line ms).1 = [] := by
  cases ms with
  | nil => rfl
  | cons m ms =>
      obtain ⟨st, mt, grp⟩ := m
      have := h (st, mt, grp) (List.mem_cons_self _ _)
      simp only at this
      rw [this]
      rfl

theorem foldl_seqEmit_nil {β : Type} (step : β → List FileMatch × Bool)
    (l : List β) (h : ∀ b ∈ l, (step b).1 = []) :
    ∀ acc : List FileMatch × Bool, acc.1 = [] →
      ((l.foldl (fun a b => seqEmit a (fun _ => step b)) acc).1 = []) := by
  induction l with
  | nil =>
      intro acc hacc
      simpa using hacc
  | cons b l ih =>
      intro acc hacc
      rw [List.foldl_cons]
      refine ih (fun x hx => h x (List.mem_cons_of_mem _ hx)) _ ?_
      unfold seqEmit
      by_cases he : acc.2
      · simp [he, hacc]
      · simp [he, hacc, h b (List.mem_cons_self _ _)]

theorem scanLineExc_no_group (ci : Bool) (pats : List (List Tok)) (file : String)
    (n : Nat) (line : String) (hng : ∀ p ∈ pats, countGroups p = 0) :
    (scanLineExc ci pats file n line).1 = [] := by
  unfold scanLineExc
  refine foldl_seqEmit_nil _ pats ?_ ([], false) rfl
  intro pat hpat
  refine emitMatches_all_none _ _ _ _ ?_
  intro m hm
  exact finditerAux_no_group ci pat (hng pat hpat) _ _ _ m hm

theorem scannerInit_ok_no_malformed :
    ∀ (ps : List UserPattern) (ts : List (List Tok)), scannerInit ps = .ok ts →
      ∀ p ∈ ps, ∀ m, p ≠ UserPattern.malformed m := by
  intro ps
  induction ps with
  | nil =>
      intro ts _ p hp
      simp at hp
  | cons q ps ih =>
      intro ts hok p hp m
      cases q with
      | malformed e => simp [scannerInit] at hok
      | ok t =>
          rcases List.mem_cons.mp hp with rfl | hp'
          · exact fun hc => UserPattern.noConfusion hc
          · simp only [scannerInit] at hok
            cases hinit : scannerInit ps with
            | reError e => rw [hinit] at hok; exact absurd hok (by simp)
            | ok ts' => exact ih ts' hinit p hp' m

theorem scannerInit_error_iff_firstMalformed :
    ∀ (qs : List UserPattern) (e : String),
      scannerInit qs = .reError e ↔ firstMalformed qs = some e := by
  intro qs
  induction qs with
  | nil =>
      intro e
      simp [scannerInit, firstMalformed]
  | cons q qs ih =>
      intro e
      cases q with
      | malformed m => simp [scannerInit, firstMalformed, List.findSome?_cons]
      | ok t =>
          simp only [scannerInit, firstMalformed, List.findSome?_cons]
          cases hinit : scannerInit qs with
          | reError m =>
              have hie := ih e
              rw [hinit] at hie
              simpa [firstMalformed] using hie
          | ok ts' =>
              constructor
              · intro hc
                exact absurd hc (by simp)
              · intro hc
                have := (ih e).mpr (by simpa [firstMalformed] using hc)
                rw [hinit] at this
                exact absurd this (by simp)

/-- C5 counterexample: a syntactically valid pattern with no capture group
(the regex `InputPressed`) is accepted by the scanner's constructor — no error
of any kind, let alone a `ConfigurationError`, is raised at compile time. -/
theorem groupless_pattern_accepted :
    countGroups (lits "InputPressed") = 0 ∧
      scannerInit [UserPattern.ok (lits "InputPressed")] =
        InitOutcome.ok [lits "InputPressed"] :=
  ⟨by decide, rfl⟩

/-- C5 amended: a pattern that is not a valid regular expression makes the
constructor fail eagerly with the regex compile error naming the first such
pattern (there is no `ConfigurationError` type); a pattern lacking a capture
group is accepted at construction, and at scan time the failed group access is
caught per file, so no match record is ever emitted for it — scanning with only
group-less patterns yields no records at all. -/
theorem pattern_validation_behavior (ps : List UserPattern)
    (ts : List (List Tok)) (lines : List String) (ci : Bool) (file : String)
    (hok : scannerInit ps = .ok ts) (hng : ∀ t ∈ ts, countGroups t = 0) :
    (∀ p ∈ ps, ∀ m, p ≠ UserPattern.malformed m) ∧
      (∀ (qs : List UserPattern) (e : String),
        scannerInit qs = .reError e ↔ firstMalformed qs = some e) ∧
      (scanFileLinesExc ci ts file lines).1 = [] := by
  refine ⟨scannerInit_ok_no_malformed ps ts hok, scannerInit_error_iff_firstMalformed, ?_⟩
  unfold scanFileLinesExc
  refine foldl_seqEmit_nil _ _ ?_ ([], false) rfl
  intro p _
  exact scanLineExc_no_group ci ts file p.1 p.2 hng

theorem pattern_validation_behavior_witness :
    (scannerInit [UserPattern.ok (lits "InputPressed")] =
        InitOutcome.ok [lits "InputPressed"] ∧
      (∀ t ∈ [lits "InputPressed"], countGroups t = 0)) ∧
    ((∀ p ∈ [UserPattern.ok (lits "InputPressed")], ∀ m,
        p ≠ UserPattern.malformed m) ∧
      (∀ (qs : List UserPattern) (e : String),
        scannerInit qs = .reError e ↔ firstMalformed qs = some e) ∧
      (scanFileLinesExc false [lits "InputPressed"] "f"
        ["InputPressed(\"X\")"]).1 = []) :=
  ⟨⟨rfl, by decide⟩,
    pattern_validation_behavior [UserPattern.ok (lits "InputPressed")]
      [lits "InputPressed"] ["InputPressed(\"X\")"] false "f" rfl (by decide)⟩

/-! ## C8: characterization of `should_scan_file` -/

theorem toNat_ofNat_valid (m : Nat) (h : m.isValidChar) :
    (Char.ofNat m).toNat = m := by
  unfold Char.ofNat
  rw [dif_pos h]
  rfl

theorem toLower_eq_newline {c : Char} (h : c.toLower = '\n') : c = '\n' := by
  unfold Char.toLower at h
  simp only at h
  by_cases hr : c.toNat ≥ 65 ∧ c.toNat ≤ 90
  · rw [if_pos hr] at h
    exfalso
    have h10 : (Char.ofNat (c.toNat + 32)).toNat = ('\n' : Char).toNat :=
      congrArg Char.toNat h
    have hv : (c.toNat + 32).isValidChar := Or.inl (by omega)
    rw [toNat_ofNat_valid _ hv] at h10
    have hn : ('\n' : Char).toNat = 10 := by decide
    omega
  · rw [if_neg hr] at h
    exact h

theorem toLower_ne_newline (c : Char) :
    decide (c.toLower ≠ '\n') = decide (c ≠ '\n') := by
  by_cases hc : c = '\n'
  · subst hc
    decide
  · have hl : c.toLower ≠ '\n' := fun h => hc (toLower_eq_newline h)
    simp [hl, hc]

theorem matchToks_lits (ci : Bool) (w : List Char) (ts : List Tok) (s : List Char) :
    matchToks ci (w.map Tok.lit ++ ts) s =
      if ciPrefixB ci w s then matchToks ci ts (s.drop w.length) else none := by
  induction w generalizing s with
  | nil => simp [ciPrefixB]
  | cons c w ih =>
      cases s with
      | nil => simp [matchToks, ciPrefixB]
      | cons a s' =>
          by_cases hce : charEq ci c a
          · simp [matchToks, ciPrefixB, hce, ih]
          · simp [matchToks, ciPrefixB, hce]

theorem matchToks_eol_last (ci : Bool) (s : List Char) :
    matchToks ci [Tok.eol] s =
      if s = [] ∨ s = ['\n'] then some (s, none) else none := rfl

theorem runLen_le_length (p : Char → Bool) (l : List Char) : runLen p l ≤ l.length := by
  induction l with
  | nil => simp [runLen]
  | cons c l ih =>
      by_cases hc : p c
      · simp only [runLen, hc, if_true, List.length_cons]
        omega
      · simp [runLen, hc]

theorem all_take_of_le_runLen (p : Char → Bool) (l : List Char) (i : Nat)
    (h : i ≤ runLen p l) : (l.take i).all p = true := by
  induction l generalizing i with
  | nil => simp
  | cons c l ih =>
      cases i with
      | zero => simp
      | succ j =>
          by_cases hc : p c
          · rw [runLen, if_pos hc] at h
            simp only [List.take_succ_cons, List.all_cons, hc, Bool.true_and]
            exact ih j (by omega)
          · rw [runLen, if_neg hc] at h
            omega

theorem runLen_eq_length_iff_all (p : Char → Bool) (l : List Char) :
    runLen p l = l.length ↔ l.all p = true := by
  induction l with
  | nil => simp [runLen]
  | cons c l ih =>
      by_cases hc : p c
      · rw [show runLen p (c :: l) = runLen p l + 1 from by simp [runLen, hc]]
        simp only [List.length_cons, List.all_cons, hc, Bool.true_and,
          Nat.add_right_cancel_iff]
        exact ih
      · rw [show runLen p (c :: l) = 0 from by simp [runLen, hc]]
        simp only [List.length_cons, List.all_cons]
        constructor
        · intro h
          omega
        · intro h
          rw [Bool.and_eq_true] at h
          exact absurd h.1 hc

theorem runLen_append_stop (p : Char → Bool) (t : List Char) (c : Char)
    (u : List Char) (ht : t.all p = true) (hc : p c = false) :
    runLen p (t ++ c :: u) = t.length := by
  induction t with
  | nil => simp [runLen, hc]
  | cons a t ih =>
      simp only [List.all_cons, Bool.and_eq_true] at ht
      simp [runLen, ht.1, ih ht.2]

theorem tryFromDown_isSome_iff {α : Type} (f : Nat → Option α) (k : Nat) :
    (tryFromDown f k).isSome = true ↔ ∃ i, i ≤ k ∧ (f i).isSome = true := by
  induction k with
  | zero =>
      constructor
      · intro h
        exact ⟨0, Nat.le_refl _, h⟩
      · rintro ⟨i, hi, h⟩
        have : i = 0 := Nat.le_zero.mp hi
        subst this
        exact h
  | succ k ih =>
      unfold tryFromDown
      cases hf : f (k + 1) with
      | some v =>
          simp only [orElseOpt, Option.isSome_some]
          constructor
          · intro _
            exact ⟨k + 1, Nat.le_refl _, by simp [hf]⟩
          · intro _
            trivial
      | none =>
          simp only [orElseOpt]
          rw [ih]
          constructor
          · rintro ⟨i, hi, h⟩
            exact ⟨i, Nat.le_succ_of_le hi, h⟩
          · rintro ⟨i, hi, h⟩
            rcases Nat.lt_or_ge i (k + 1) with hlt | hge
            · exact ⟨i, by omega, h⟩
            · exfalso
              have hik : i = k + 1 := by omega
              subst hik
              rw [hf] at h
              simp at h

theorem star_eol_isSome_iff (ci : Bool) (s : List Char) :
    (matchToks ci [Tok.star CharClass.notNewline, Tok.eol] s).isSome = true ↔
      s.dropLast.all (fun c => decide (c ≠ '\n')) = true := by
  have hmt : matchToks ci [Tok.star CharClass.notNewline, Tok.eol] s =
      tryFromDown (fun i => matchToks ci [Tok.eol] (s.drop i))
        (runLen CharClass.notNewline.test s) := rfl
  rw [hmt, tryFromDown_isSome_iff]
  constructor
  · rintro ⟨i, hik, hsome⟩
    rw [matchToks_eol_last] at hsome
    by_cases hc : s.drop i = [] ∨ s.drop i = ['\n']
    · rcases hc with hnil | hnl
      · have hlen : s.length ≤ i := List.drop_eq_nil_iff.mp hnil
        have hrl : runLen CharClass.notNewline.test s = s.length :=
          Nat.le_antisymm (runLen_le_length _ _) (Nat.le_trans hlen hik)
        have hall := (runLen_eq_length_iff_all _ _).mp hrl
        rw [List.all_eq_true] at hall ⊢
        intro c hcm
        exact hall c ((List.dropLast_sublist s).subset hcm)
      · have hsplit : s = s.take i ++ ['\n'] := by
          conv_lhs => rw [← List.take_append_drop i s]
          rw [hnl]
        have htake : (s.take i).all CharClass.notNewline.test = true :=
          all_take_of_le_runLen _ _ i hik
        rw [hsplit, List.dropLast_concat]
        exact htake
    · rw [if_neg hc] at hsome
      simp at hsome
  · intro h
    rcases List.eq_nil_or_concat s with rfl | ⟨t, c, hcat⟩
    · exact ⟨0, Nat.zero_le _, by rw [matchToks_eol_last]; simp⟩
    · rw [List.concat_eq_append] at hcat
      subst hcat
      rw [List.dropLast_concat] at h
      by_cases hcnl : c = '\n'
      · subst hcnl
        have hrl : runLen CharClass.notNewline.test (t ++ '\n' :: []) = t.length :=
          runLen_append_stop _ t '\n' [] h (by decide)
        refine ⟨t.length, by rw [hrl], ?_⟩
        rw [matchToks_eol_last, List.drop_left]
        simp
      · have hall : (t ++ [c]).all (fun x => decide (x ≠ '\n')) = true := by
          rw [List.all_append, Bool.and_eq_true]
          refine ⟨h, ?_⟩
          simp [hcnl]
        have hrl : runLen CharClass.notNewline.test (t ++ [c]) = (t ++ [c]).length :=
          (runLen_eq_length_iff_all _ _).mpr hall
        refine ⟨(t ++ [c]).length, by rw [hrl], ?_⟩
        rw [matchToks_eol_last, List.drop_length]
        simp

theorem ciPrefixB_lower (w : List Char) (hw : ∀ c ∈ w, c.toLower = c) :
    ∀ s : List Char, ciPrefixB true w s = isPrefixB w (s.map Char.toLower) := by
  induction w with
  | nil =>
      intro s
      cases s <;> rfl
  | cons c w ih =>
      intro s
      cases s with
      | nil => rfl
      | cons a s' =>
          simp only [ciPrefixB, isPrefixB, List.map_cons, charEq, if_pos rfl]
          rw [show decide (c.toLower = a.toLower) = decide (c = a.toLower) from by
              rw [hw c (List.mem_cons_self _ _)],
            ih (fun x hx => hw x (List.mem_cons_of_mem _ hx)) s']
          simp

theorem isPrefixB_iff_append {α : Type} [DecidableEq α] (w : List α) :
    ∀ ls : List α, isPrefixB w ls = true ↔ ∃ t, ls = w ++ t := by
  induction w with
  | nil =>
      intro ls
      simp only [isPrefixB, List.nil_append, true_iff]
      exact ⟨ls, rfl⟩
  | cons a w ih =>
      intro ls
      cases ls with
      | nil =>
          simp only [isPrefixB, List.cons_append]
          constructor
          · intro h
            simp at h
          · rintro ⟨t, ht⟩
            simp at ht
      | cons b ls =>
          simp only [isPrefixB, Bool.and_eq_true, decide_eq_true_eq,
            List.cons_append, List.cons.injEq]
          rw [ih ls]
          constructor
          · rintro ⟨hab, t, ht⟩
            exact ⟨t, hab.symm, ht⟩
          · rintro ⟨t, hba, ht⟩
            exact ⟨hba.symm, t, ht⟩

theorem litEol_match_iff (w : List Char) (hw : ∀ c ∈ w, c.toLower = c)
    (s : List Char) :
    (matchToks true (w.map Tok.lit ++ [Tok.eol]) s).isSome = true ↔
      (s.map Char.toLower = w ∨ s.map Char.toLower = w ++ ['\n']) := by
  rw [matchToks_lits]
  by_cases hp : ciPrefixB true w s = true
  · rw [if_pos hp, matchToks_eol_last]
    obtain ⟨t, ht⟩ := (isPrefixB_iff_append w _).mp
      (by rw [← ciPrefixB_lower w hw s]; exact hp)
    have hdrop : (s.drop w.length).map Char.toLower = t := by
      rw [List.map_drop, ht, List.drop_left]
    constructor
    · intro hs
      by_cases hc : s.drop w.length = [] ∨ s.drop w.length = ['\n']
      · rcases hc with hnil | hnl
        · left
          rw [ht]
          have htnil : t = [] := by rw [← hdrop, hnil]; rfl
          simp [htnil]
        · right
          rw [ht]
          have htnl : t = ['\n'] := by rw [← hdrop, hnl]; rfl
          simp [htnl]
      · rw [if_neg hc] at hs
        simp at hs
    · intro hcase
      rcases hcase with hone | htwo
      · have hteq : t = [] := by
          have hwt : w ++ t = w := by rw [← ht, hone]
          have := congrArg List.length hwt
          simp at this
          exact this
        have hdnil : s.drop w.length = [] := by
          have hmap : (s.drop w.length).map Char.toLower = [] := by
            rw [hdrop, hteq]
          exact List.map_eq_nil_iff.mp hmap
        rw [if_pos (Or.inl hdnil)]
        simp
      · have hteq : t = ['\n'] := by
          have h2 : w ++ t = w ++ ['\n'] := by rw [← ht, htwo]
          exact List.append_cancel_left h2
        have hd1 : (s.drop w.length).map Char.toLower = ['\n'] := by
          rw [hdrop, hteq]
        have hdnl : s.drop w.length = ['\n'] := by
          cases hdd : s.drop w.length with
          | nil => rw [hdd] at hd1; simp at hd1
          | cons c cs =>
              rw [hdd] at hd1
              simp only [List.map_cons, List.cons.injEq] at hd1
              rw [toLower_eq_newline hd1.1, List.map_eq_nil_iff.mp hd1.2]
        rw [if_pos (Or.inr hdnl)]
        simp
  · rw [if_neg hp]
    simp only [Option.isSome_none]
    constructor
    · intro h
      simp at h
    · intro hcase
      exfalso
      apply hp
      rw [ciPrefixB_lower w hw s]
      rcases hcase with h1 | h2
      · exact (isPrefixB_iff_append w _).mpr ⟨[], by rw [h1, List.append_nil]⟩
      · exact (isPrefixB_iff_append w _).mpr ⟨['\n'], h2⟩

theorem all_ne_newline_map_toLower (x : List Char) :
    (x.map Char.toLower).all (fun c => decide (c ≠ '\n')) =
      x.all (fun c => decide (c ≠ '\n')) := by
  rw [List.all_map]
  have hfun : ((fun c => decide (c ≠ '\n')) ∘ Char.toLower) =
      (fun c : Char => decide (c ≠ '\n')) := by
    funext c
    simp only [Function.comp]
    exact toLower_ne_newline c
  rw [hfun]

theorem readme_match_iff (s : List Char) :
    (matchToks true ("readme".data.map Tok.lit ++
        [Tok.star CharClass.notNewline, Tok.eol]) s).isSome = true ↔
      (isPrefixB "readme".data (s.map Char.toLower) = true ∧
        (s.map Char.toLower).dropLast.all (fun c => decide (c ≠ '\n')) = true) := by
  have hw : ∀ c ∈ "readme".data, c.toLower = c := by decide
  rw [matchToks_lits]
  by_cases hp : ciPrefixB true "readme".data s = true
  · rw [if_pos hp, star_eol_isSome_iff]
    have hpre : isPrefixB "readme".data (s.map Char.toLower) = true := by
      rw [← ciPrefixB_lower "readme".data hw s]
      exact hp
    obtain ⟨t, ht⟩ := (isPrefixB_iff_append "readme".data _).mp hpre
    have hdrop : (s.drop ("readme".data.length)).map Char.toLower = t := by
      rw [List.map_drop, ht, List.drop_left]
    simp only [hpre, true_and]
    -- both sides are the no-interior-newline test of the tail
    have hlhs : (s.drop "readme".data.length).dropLast.all
        (fun c => decide (c ≠ '\n')) = t.dropLast.all (fun c => decide (c ≠ '\n')) := by
      rw [← all_ne_newline_map_toLower ((s.drop "readme".data.length).dropLast),
        List.map_dropLast, hdrop]
    rw [hlhs, ht]
    cases htn : t with
    | nil =>
        simp only [List.append_nil]
        have hwclean : ("readme".data.dropLast).all (fun c => decide (c ≠ '\n')) = true := by
          decide
        simp [hwclean]
    | cons c cs =>
        rw [List.dropLast_append_of_ne_nil "readme".data (by simp)]
        rw [List.all_append]
        have hwall : ("readme".data).all (fun c => decide (c ≠ '\n')) = true := by decide
        simp [hwall]
  · rw [if_neg hp]
    simp only [Option.isSome_none]
    constructor
    · intro h
      simp at h
    · rintro ⟨hpre, _⟩
      exfalso
      apply hp
      rw [ciPrefixB_lower "readme".data hw s]
      exact hpre

/-- C8 counterexample: a filename consisting of `main.lua` plus a trailing
newline is accepted by `should_scan_file` (Python's `$` matches just before a
trailing newline) although it neither equals one of the three fixed names nor
begins with `readme`. -/
theorem should_scan_trailing_newline_cex :
    should_scan_file "main.lua\n" = true ∧ claimShouldScan "main.lua\n" = false :=
  ⟨by decide, by decide⟩

/-- C8 amended: `should_scan_file` returns true exactly for filenames that,
case-insensitively, equal `main.lua`, `options.lua` or `info.txt` — each
optionally followed by a single trailing newline — or begin with `readme` and
contain no newline other than, optionally, a final one; every other filename is
rejected. -/
theorem should_scan_characterization (name : String) :
    should_scan_file name = amendedShouldScan name := by
  apply Bool.eq_iff_iff.mpr
  have hmain := litEol_match_iff "main.lua".data (by decide) name.data
  have hopts := litEol_match_iff "options.lua".data (by decide) name.data
  have hinfo := litEol_match_iff "info.txt".data (by decide) name.data
  have hread := readme_match_iff name.data
  simp only [should_scan_file, FILE_PATTERNS, mainLuaToks, optionsLuaToks,
    infoTxtToks, readmeToks, lits, reMatchB, List.any_cons, List.any_nil,
    Bool.or_false, Bool.or_eq_true] at *
  simp only [amendedShouldScan, Bool.or_eq_true, decide_eq_true_eq,
    Bool.and_eq_true]
  rw [hmain, hopts, hinfo, hread]
  simp only [List.cons_append, List.nil_append]
  constructor
  · rintro ((h | h) | (h | h) | (h | h) | h)
    · exact Or.inl (Or.inl (Or.inl (Or.inl (Or.inl (Or.inl h)))))
    · exact Or.inl (Or.inl (Or.inl (Or.inl (Or.inl (Or.inr h)))))
    · exact Or.inl (Or.inl (Or.inl (Or.inl (Or.inr h))))
    · exact Or.inl (Or.inl (Or.inl (Or.inr h)))
    · exact Or.inl (Or.inl (Or.inr h))
    · exact Or.inl (Or.inr h)
    · exact Or.inr h
  · rintro ((((((h | h) | h) | h) | h) | h) | h)
    · exact Or.inl (Or.inl h)
    · exact Or.inl (Or.inr h)
    · exact Or.inr (Or.inl (Or.inl h))
    · exact Or.inr (Or.inl (Or.inr h))
    · exact Or.inr (Or.inr (Or.inl (Or.inl h)))
    · exact Or.inr (Or.inr (Or.inl (Or.inr h)))
    · exact Or.inr (Or.inr (Or.inr h))
